import Mathlib

/-!
# IPL Auction Simulator — verification of the auction engine

Shallow embedding of the auction engine of `IPLAuctionSimulator2024`
(`src/models/player.py`, `src/models/team.py`, `src/models/auction.py`).
Money amounts (Python `float`s holding crore values that the source always
rounds to two decimals via `round(_, 2)`) are modelled as rationals `ℚ`;
`round2` below models Python's two-decimal rounding.  Python `dict`
indexing that can raise `KeyError` is modelled with `Option`: a function
returns `none` exactly where the Python code would raise.  Python lists of
`Team` objects mutated in place are modelled by passing the team list
explicitly and addressing teams by their index in that list.

The second, unfinished `AuctionSimulator` at the bottom of
`src/models/team.py` is dead code (it references undefined locals and is
not imported by `main.py`, which imports `models.auction.AuctionSimulator`);
the engine embedded here is the one in `src/models/auction.py`.
-/

namespace IPLAuction

/-- `src/models/player.py` — the `Player` dataclass. -/
structure Player where
  name : String
  base_price : ℚ
  category : String
  nationality : String
  age : ℤ
  test_caps : ℕ := 0
  odi_caps : ℕ := 0
  t20_caps : ℕ := 0
  ipl_seasons : ℕ := 0
  previous_ipl_teams : Option String := none
  current_ipl_team : Option String := none
  current_ipl_status : Option String := none
  specialization : String := ""
  set_2025 : Option String := none
  deriving Repr, DecidableEq

/-- One entry of an auction record's `bidding_history`
(`src/models/auction.py`, `_process_bidding`). -/
structure BidEvent where
  team : String
  bid_amount : ℚ
  status : String
  deriving Repr, DecidableEq

/-- The per-player auction record built by `_create_auction_record` and
filled in by `_process_bidding` / `_finalize_sale`
(`src/models/auction.py`).  The `timestamp` field (wall-clock time) is
omitted. -/
structure AuctionRecord where
  player_name : String
  base_price : ℚ
  category : String
  nationality : String
  test_caps : ℕ
  odi_caps : ℕ
  t20_caps : ℕ
  ipl_seasons : ℕ
  pset : String
  bidding_history : List BidEvent
  final_price : Option ℚ
  winning_team : Option String
  status : String
  deriving Repr, DecidableEq

/-- `src/models/team.py` — the `TeamCapabilities` dataclass.  Its
`role_counts` field is a Python dict; it is modelled as an association
list (key, count). -/
structure TeamCapabilities where
  can_add_overseas : Bool := true
  can_add_uncapped : Bool := true
  has_keeper : Bool := false
  role_counts : List (String × ℕ) := []
  deriving Repr, DecidableEq

/-- `src/models/team.py` — the `Team` dataclass.  `required_roles` is a
Python dict `category ↦ (min, max)`; it is modelled as an association
list with first-match lookup (a Python dict literal has distinct keys).
The `retained_players` / `auction_history` bookkeeping fields, set in
`__post_init__` and used only by the presentation layer, are omitted. -/
structure Team where
  name : String
  purse : ℚ
  players : List Player
  max_squad_size : ℕ := 25
  min_squad_size : ℕ := 18
  max_overseas : ℕ := 8
  min_overseas : ℕ := 6
  max_uncapped : ℕ := 5
  min_uncapped : ℕ := 2
  required_roles : List (String × ℕ × ℕ) :=
    [("BATTER", 6, 8), ("BOWLER", 6, 8), ("ALL-ROUNDER", 3, 6), ("WICKETKEEPER", 1, 3)]
  deriving Repr, DecidableEq

/-- The default `required_roles` table of the `Team` dataclass (also the
`DEFAULT_ROLES` used by `Team.create_teams`). -/
def defaultRequiredRoles : List (String × ℕ × ℕ) :=
  [("BATTER", 6, 8), ("BOWLER", 6, 8), ("ALL-ROUNDER", 3, 6), ("WICKETKEEPER", 1, 3)]

/-- Placeholder team used for out-of-range list indexing in the model
(never reached on the source's execution paths). -/
def defaultTeam : Team :=
  { name := "", purse := 0, players := [] }

/-- Python dict lookup `d[k]` on an association list: `none` models a
`KeyError`. -/
def lookupRole (d : List (String × ℕ × ℕ)) (k : String) : Option (ℕ × ℕ) :=
  match d with
  | [] => none
  | (k', v) :: rest => if k' = k then some v else lookupRole rest k

/-- The four keys of every `role_counts` dict literal built in
`can_bid` / `calculate_bid_value` (`src/models/team.py`). -/
def stdCategories : List String :=
  ["BATTER", "BOWLER", "ALL-ROUNDER", "WICKETKEEPER"]

/-- `sum(1 for p in players if p.category == cat)`. -/
def roleCount (players : List Player) (cat : String) : ℕ :=
  players.countP (fun p => p.category = cat)

/-- Indexing the fixed four-key `role_counts` dict of `can_bid` /
`calculate_bid_value`: raises (`none`) on any other key. -/
def roleCountD (players : List Player) (cat : String) : Option ℕ :=
  if cat ∈ stdCategories then some (roleCount players cat) else none

/-- Python `round(q, 2)` on the model's exact rationals, written with
the executable `Rat.floor` (`round2_eq_round` below identifies it with
Mathlib's `round`).  (Python uses round-half-even on binary floats; the
model rounds half up.  The two agree except at exact half-cent values,
and every quantity the source rounds is either such an exact
two-decimal value — where both are the identity — or carries the
valuation jitter, where no claim depends on the half-cent direction.) -/
def round2 (q : ℚ) : ℚ := ((Rat.floor (q * 100 + 1 / 2) : ℤ) : ℚ) / 100

/-- Executable ceiling on `ℚ` (`ratCeil_eq_intCeil` below identifies it
with `⌈⌉`). -/
def ratCeil (q : ℚ) : ℤ := -Rat.floor (-q)

theorem ratFloor_eq_intFloor (q : ℚ) : Rat.floor q = ⌊q⌋ := by
  rw [Rat.floor_def', Rat.floor_def]

theorem ratCeil_eq_intCeil (q : ℚ) : ratCeil q = ⌈q⌉ := by
  rw [ratCeil, ratFloor_eq_intFloor, Int.floor_neg, neg_neg]

theorem round2_eq_round (q : ℚ) : round2 q = ((round (q * 100) : ℤ) : ℚ) / 100 := by
  rw [round2, ratFloor_eq_intFloor, ← round_eq]

/-- `Team.get_overseas_count` (`src/models/team.py`): players whose
nationality differs from `"India"`. -/
def get_overseas_count (t : Team) : ℕ :=
  t.players.countP (fun p => p.nationality ≠ "India")

/-- `Team.get_uncapped_count` (`src/models/team.py`). -/
def get_uncapped_count (t : Team) : ℕ :=
  t.players.countP (fun p => p.test_caps + p.odi_caps + p.t20_caps = 0)

/-- `Team.calculate_capabilities` (`src/models/team.py`): computed
overseas count compares nationality against `"Indian"` (not `"India"`)
and against the literal `8` (not `self.max_overseas`). -/
def calculate_capabilities (t : Team) : TeamCapabilities :=
  { can_add_overseas := t.players.countP (fun p => p.nationality ≠ "Indian") < 8
    can_add_uncapped := true
    has_keeper := t.players.any (fun p => p.category = "WICKETKEEPER")
    role_counts := stdCategories.map (fun role => (role, roleCount t.players role)) }

/-- `TeamCapabilities.can_accommodate` (`src/models/team.py`).
`len(self.role_counts)` is the number of dict keys (always 4 for
capabilities built by `calculate_capabilities`). -/
def can_accommodate (caps : TeamCapabilities) (player : Player) : Bool :=
  if player.nationality ≠ "Indian" ∧ ¬caps.can_add_overseas then false
  else if ¬caps.has_keeper ∧ caps.role_counts.length ≥ 15 then
    player.category = "WICKETKEEPER"
  else true

/-- The `standardized_roles` table set up in `Team.__post_init__`:
dataclass key ↦ (spreadsheet-style name, (min, max)). -/
def standardizedRoles : List (String × String × ℕ × ℕ) :=
  [("BATTER", "Batsman", 6, 8), ("BOWLER", "Bowler", 6, 8),
   ("ALL-ROUNDER", "All-rounder", 3, 6), ("WICKETKEEPER", "Wicket-keeper", 1, 3)]

/-- `category.lower().replace(" ", "")`. -/
def normalizeCat (s : String) : List Char :=
  (s.toList.filter (fun c => c ≠ ' ')).map Char.toLower

/-- `needle` starts `hay` (character-wise). -/
def charsStartWith : List Char → List Char → Bool
  | [], _ => true
  | _ :: _, [] => false
  | a :: as, b :: bs => a == b && charsStartWith as bs

/-- Python `needle in hay` substring containment, character-wise. -/
def charsContain (needle : List Char) : List Char → Bool
  | [] => needle.isEmpty
  | c :: rest => charsStartWith needle (c :: rest) || charsContain needle rest

/-- `Team.get_standardized_category` (`src/models/team.py`): exact key
match, then fuzzy substring match on normalized names, else the
`All-rounder` default (the source also prints a warning there). -/
def get_standardized_category (category : String) : String :=
  match lookupStd standardizedRoles with
  | some full => full
  | none =>
    match fuzzy standardizedRoles with
    | some full => full
    | none => "All-rounder"
where
  lookupStd : List (String × String × ℕ × ℕ) → Option String
    | [] => none
    | (k, full, _) :: rest => if k = category then some full else lookupStd rest
  fuzzy : List (String × String × ℕ × ℕ) → Option String
    | [] => none
    | (k, full, _) :: rest =>
      if charsContain (normalizeCat category) (normalizeCat k) then some full
      else fuzzy rest

/-- `Team.get_role_requirements` (`src/models/team.py`). -/
def get_role_requirements (t : Team) (category : String) : ℕ × ℕ :=
  match find (get_standardized_category category) standardizedRoles with
  | some req => req
  | none => (3, 6)
where
  find (std : String) : List (String × String × ℕ × ℕ) → Option (ℕ × ℕ)
    | [] => none
    | (_, full, req) :: rest => if full = std then some req else find std rest

/-- `Team.can_bid` (`src/models/team.py`).  Returns `none` exactly where
the Python code raises `KeyError`: indexing `self.required_roles` or the
four-key `role_counts` dict with an unrecognized category.  Note the
purse test uses the player's *base* price. -/
def can_bid (t : Team) (player : Player) : Option Bool :=
  if player.base_price > t.purse then some false
  else if t.players.length ≥ t.max_squad_size then some false
  else
    let overseas_count := get_overseas_count t
    if player.nationality ≠ "India" ∧ overseas_count ≥ t.max_overseas then some false
    else
      match lookupRole t.required_roles player.category with
      | none => none
      | some (_, max_req) =>
        match roleCountD t.players player.category with
        | none => none
        | some cnt =>
          if cnt ≥ max_req then some false
          else
            let current_squad_size := t.players.length
            let slots0 : ℤ := (t.max_squad_size : ℤ) - current_squad_size - 1
            match reserve slots0 t.required_roles with
            | none => none
            | some remaining_slots =>
              if remaining_slots < 0 then some false
              else
                let remaining_min_slots : ℕ :=
                  t.min_squad_size - (current_squad_size + 1)
                if remaining_min_slots > 0 ∧
                    t.purse - player.base_price <
                      (remaining_min_slots : ℚ) * (2 / 10) then some false
                else some true
where
  /-- The `for role, (min_req, _) in self.required_roles.items()` loop
  subtracting unmet minimum requirements of the other roles. -/
  reserve (acc : ℤ) : List (String × ℕ × ℕ) → Option ℤ
    | [] => some acc
    | (role, min_req, _) :: rest =>
      if role ≠ player.category then
        match roleCountD t.players role with
        | none => none
        | some current =>
          if current < min_req then
            reserve (acc - ((min_req : ℤ) - current)) rest
          else reserve acc rest
      else reserve acc rest

/-- Python truthiness of an `Optional[str]` (`if player.current_ipl_team:`). -/
def pyTruthy : Option String → Bool
  | none => false
  | some s => s ≠ ""

/-- `Team.calculate_bid_value` (`src/models/team.py`), with the one draw
of `random.uniform(0.85, 1.15)` made an explicit `jitter` argument.
Returns `none` exactly where the Python code raises `KeyError`
(unrecognized category when indexing `required_roles` / `role_counts`). -/
def calculate_bid_value (t : Team) (player : Player) (jitter : ℚ) : Option ℚ :=
  let base_value := player.base_price
  let experience_multiplier : ℚ :=
    (if player.current_ipl_status = some "Y" then 15 / 10 else 1) *
    (if player.ipl_seasons > 100 then 15 / 10
     else if player.ipl_seasons > 50 then 13 / 10 else 1)
  let total_intl_caps := player.test_caps + player.odi_caps + player.t20_caps
  let caps_multiplier : ℚ :=
    if total_intl_caps > 100 then 18 / 10
    else if total_intl_caps > 50 then 15 / 10
    else if total_intl_caps > 20 then 13 / 10 else 1
  match lookupRole t.required_roles player.category with
  | none => none
  | some (min_required, _) =>
    match roleCountD t.players player.category with
    | none => none
    | some current_count =>
      let urgency_multiplier : ℚ :=
        if current_count < min_required then 2
        else if current_count < min_required + 1 then 15 / 10 else 1
      let special_multiplier : ℚ :=
        (if player.nationality ≠ "India" then 13 / 10 else 1) *
        (if pyTruthy player.current_ipl_team then 12 / 10 else 1) *
        (if player.age ≤ 25 then 12 / 10 else 1)
      let purse_factor : ℚ :=
        if t.purse > 30 then 14 / 10 else if t.purse > 20 then 12 / 10 else 1
      let final_value :=
        base_value * experience_multiplier * caps_multiplier *
          urgency_multiplier * special_multiplier * purse_factor * jitter
      let final_value :=
        if total_intl_caps > 50 then max final_value 4 else final_value
      let final_value :=
        if player.category = "WICKETKEEPER" then max final_value 2 else final_value
      let max_bid := min final_value (t.purse * (4 / 10))
      some (round2 max_bid)

/-- `AuctionSimulator._get_bid_increment` (`src/models/auction.py`). -/
def get_bid_increment (current_price : ℚ) : ℚ :=
  if current_price ≤ 1 then 5 / 100
  else if current_price ≤ 2 then 10 / 100
  else if current_price ≤ 3 then 10 / 100
  else if current_price ≤ 5 then 20 / 100
  else if current_price ≤ 10 then 20 / 100
  else 50 / 100

/-- `AuctionSimulator._create_auction_record` (`src/models/auction.py`).
The source reads `getattr(player, '2025_Set', 'Unassigned')`; `Player`
has no attribute named `2025_Set` (the field is `set_2025`), so the
record's set field is always the `'Unassigned'` default. -/
def create_auction_record (player : Player) : AuctionRecord :=
  { player_name := player.name
    base_price := player.base_price
    category := player.category
    nationality := player.nationality
    test_caps := player.test_caps
    odi_caps := player.odi_caps
    t20_caps := player.t20_caps
    ipl_seasons := player.ipl_seasons
    pset := "Unassigned"
    bidding_history := []
    final_price := none
    winning_team := none
    status := "Unsold" }

/-- `teams[i]` for the in-place-mutated Python team list (teams are
addressed by index; the auction loop never reorders the list). -/
def getTeam (teams : List Team) (i : ℕ) : Team := teams.getD i defaultTeam

/-- The mutable locals of `_process_bidding`'s while-loop: the active
team indices, the running price, the most recent leader, the bid log so
far, and the cursor into the jitter stream (one jitter per
`calculate_bid_value` call). -/
structure BidState where
  active : List ℕ
  price : ℚ
  last : Option ℕ
  events : List BidEvent
  jIdx : ℕ
  deriving Repr, DecidableEq

/-- One body execution of `for team in active_teams[:]` inside
`_process_bidding`: the team either withdraws (logged at the current
price, removed from the active set) or raises (new price logged, leader
updated).  `none` models the `KeyError` a `calculate_bid_value` call can
raise. -/
def bidStep (teams : List Team) (player : Player) (jitters : ℕ → ℚ)
    (st : BidState) (s : ℕ) : Option BidState :=
  let t := getTeam teams s
  match calculate_bid_value t player (jitters st.jIdx) with
  | none => none
  | some max_bid =>
    if max_bid ≤ st.price ∨ st.price > t.purse then
      some { st with
        active := st.active.erase s
        events := st.events ++ [⟨t.name, st.price, "Withdrew"⟩]
        jIdx := st.jIdx + 1 }
    else
      let new_price := round2 (st.price + get_bid_increment st.price)
      some { st with
        price := new_price
        last := some s
        events := st.events ++ [⟨t.name, new_price, "Active"⟩]
        jIdx := st.jIdx + 1 }

/-- One full `for team in active_teams[:]` pass of `_process_bidding`
over the snapshot taken at the start of the pass. -/
def bidPass (teams : List Team) (player : Player) (jitters : ℕ → ℚ) :
    List ℕ → BidState → Option BidState
  | [], st => some st
  | s :: rest, st =>
    match bidStep teams player jitters st s with
    | none => none
    | some st' => bidPass teams player jitters rest st'

/-- The `if len(active_teams) == 1 and last_bidder == active_teams[0]:
break` test after a pass. -/
def stopCond (active : List ℕ) (last : Option ℕ) : Bool :=
  match active, last with
  | [i], some j => i == j
  | _, _ => false

/-- The `while active_teams:` loop of `_process_bidding`.  The source's
loop has no fuel; the model supplies one and `bidLoop_some` below proves
the explicit bound `bid_fuel` always suffices, so `none` from fuel
exhaustion never occurs on the source's execution paths (the other
source of `none` is a `KeyError` in `calculate_bid_value`). -/
def bidLoop (teams : List Team) (player : Player) (jitters : ℕ → ℚ) :
    ℕ → BidState → Option BidState
  | fuel, st =>
    if st.active.isEmpty then some st
    else
      match fuel with
      | 0 => none
      | fuel + 1 =>
        match bidPass teams player jitters st.active st with
        | none => none
        | some st' =>
          if stopCond st'.active st'.last then some st'
          else bidLoop teams player jitters fuel st'

/-- Largest purse among the teams (0 for an empty list); bounds every
`calculate_bid_value` result via its 40%-of-purse cap. -/
def maxPurse (teams : List Team) : ℚ :=
  (teams.map Team.purse).foldr max 0

/-- A strict upper bound on any price at which a team still raises. -/
def bidBound (teams : List Team) : ℚ := (4 / 10) * maxPurse teams + 2

/-- Fuel sufficient for `bidLoop` (proved by `bidLoop_some`). -/
def bid_fuel (teams : List Team) (startPrice : ℚ) : ℕ :=
  teams.length + (ratCeil ((bidBound teams - startPrice) * 25)).toNat + 2

/-- `AuctionSimulator._finalize_sale` (`src/models/auction.py`): a final
`can_bid` validation, then the all-or-nothing commit.  Returns the
updated record and team list; `none` models the `KeyError` `can_bid` can
raise.  The `sold_players` dict and the `winning_team.auction_history`
back-pointer are presentation bookkeeping and are not modelled. -/
def finalize_sale (player : Player) (teams : List Team) (widx : ℕ)
    (final_price : ℚ) (record : AuctionRecord) :
    Option (AuctionRecord × List Team) :=
  let winning_team := getTeam teams widx
  match can_bid winning_team player with
  | none => none
  | some false =>
    let record' := { record with status := "Unsold", final_price := none,
                                 winning_team := none }
    some (record', teams)
  | some true =>
    let record' := { record with final_price := some final_price,
                                 winning_team := some winning_team.name,
                                 status := "Sold" }
    let winner' := { winning_team with
                     players := winning_team.players ++ [player],
                     purse := winning_team.purse - final_price }
    some (record', teams.set widx winner')

/-- `AuctionSimulator._process_bidding` (`src/models/auction.py`). -/
def process_bidding (teams : List Team) (player : Player) (jitters : ℕ → ℚ)
    (interested : List ℕ) (record : AuctionRecord) (jIdx : ℕ) :
    Option (AuctionRecord × List Team × ℕ) :=
  let st0 : BidState := ⟨interested, player.base_price, none, [], jIdx⟩
  match bidLoop teams player jitters (bid_fuel teams player.base_price) st0 with
  | none => none
  | some st =>
    let record := { record with bidding_history := st.events }
    match st.last with
    | none => some (record, teams, st.jIdx)
    | some widx =>
      if st.price ≤ (getTeam teams widx).purse then
        match finalize_sale player teams widx st.price record with
        | none => none
        | some (record', teams') => some (record', teams', st.jIdx)
      else some (record, teams, st.jIdx)

/-- The `set_order` list of `AuctionSimulator.__init__`. -/
def setOrder : List String :=
  ["M1", "M2",
   "AL1", "AL2", "AL3", "AL4", "AL5", "AL6", "AL7", "AL8", "AL9", "AL10",
   "BA1", "BA2", "BA3", "BA4", "BA5",
   "FA1", "FA2", "FA3", "FA4", "FA5", "FA6", "FA7", "FA8", "FA9", "FA10",
   "SP1", "SP2", "SP3",
   "WK1", "WK2", "WK3", "WK4",
   "UAL1", "UAL2", "UAL3", "UAL4", "UAL5", "UAL6", "UAL7", "UAL8", "UAL9",
   "UAL10", "UAL11", "UAL12", "UAL13", "UAL14", "UAL15",
   "UBA1", "UBA2", "UBA3", "UBA4", "UBA5", "UBA6", "UBA7", "UBA8", "UBA9",
   "UFA1", "UFA2", "UFA3", "UFA4", "UFA5", "UFA6", "UFA7", "UFA8", "UFA9",
   "UFA10",
   "USP1", "USP2", "USP3", "USP4", "USP5",
   "UWK1", "UWK2", "UWK3", "UWK4", "UWK5", "UWK6"]

/-- The sort key order of `set_players.sort(key=lambda x: (-x.base_price,
-x.ipl_seasons))`: `a` strictly precedes `b`. -/
def keyLt (a b : Player) : Bool :=
  decide (a.base_price > b.base_price ∨
    (a.base_price = b.base_price ∧ a.ipl_seasons > b.ipl_seasons))

/-- Stable insertion used to model Python's stable `list.sort`: the new
element `x` (later in the original order) goes after every element it
does not strictly precede. -/
def insertStable (x : Player) : List Player → List Player
  | [] => [x]
  | y :: ys => if keyLt x y then x :: y :: ys else y :: insertStable x ys

/-- Python's stable `list.sort(key=lambda x: (-x.base_price,
-x.ipl_seasons))`. -/
def sortStable (l : List Player) : List Player :=
  l.foldl (fun acc x => insertStable x acc) []

/-- `AuctionSimulator._get_sorted_players` (`src/models/auction.py`):
group by `set_2025` following `set_order`, sort each group, then the
leftover players (no set or unknown set), sorted the same way. -/
def get_sorted_players (players : List Player) : List Player :=
  (setOrder.flatMap fun set_name =>
    sortStable (players.filter (fun p => p.set_2025 = some set_name))) ++
  sortStable (players.filter (fun p => p.set_2025.all (· ∉ setOrder)))

/-- The simulator state threaded through the item loop of
`simulate_auction`: the (in-place mutated) team list, the
`auction_history` ledger, and the jitter-stream cursor. -/
structure SimState where
  teams : List Team
  history : List AuctionRecord
  jIdx : ℕ
  deriving Repr, DecidableEq

/-- One iteration of the `for idx, player in enumerate(sorted_players)`
loop of `simulate_auction`.  `capsInit` is the capabilities list
pre-calculated from the *initial* team states (`team_capabilities` is
built once, before the loop): the purse side of the interest filter
reads the live team, the capabilities side reads the cached snapshot. -/
def process_item (jitters : ℕ → ℚ) (capsInit : List TeamCapabilities)
    (st : SimState) (player : Player) : Option SimState :=
  let record := create_auction_record player
  let interested := (List.range st.teams.length).filter fun i =>
    decide ((getTeam st.teams i).purse ≥ player.base_price) &&
      can_accommodate (capsInit.getD i {}) player
  if interested.isEmpty then
    some { st with history := st.history ++ [record] }
  else
    match process_bidding st.teams player jitters interested record st.jIdx with
    | none => none
    | some (record', teams', jIdx') =>
      some { teams := teams', history := st.history ++ [record'], jIdx := jIdx' }

/-- The item loop of `simulate_auction` over an explicit item list. -/
def run_items (jitters : ℕ → ℚ) (capsInit : List TeamCapabilities) :
    List Player → SimState → Option SimState
  | [], st => some st
  | p :: ps, st =>
    match process_item jitters capsInit st p with
    | none => none
    | some st' => run_items jitters capsInit ps st'

/-- `AuctionSimulator.simulate_auction` (`src/models/auction.py`):
sequence the catalog, pre-calculate each team's capabilities once, then
process every item in order.  Returns the ledger and the final team
states; `none` models an uncaught `KeyError` (see `can_bid` /
`calculate_bid_value`).  The progress callback is observational only and
is not modelled. -/
def simulate_auction (teams : List Team) (players : List Player)
    (jitters : ℕ → ℚ) : Option (List AuctionRecord × List Team) :=
  let sorted := get_sorted_players players
  let capsInit := teams.map calculate_capabilities
  match run_items jitters capsInit sorted ⟨teams, [], 0⟩ with
  | none => none
  | some st => some (st.history, st.teams)

/-! ## Two-decimal arithmetic -/

/-- A rational that is a whole number of hundredths — the form of every
price the source ever produces with `round(_, 2)`. -/
def TwoDec (q : ℚ) : Prop := ∃ z : ℤ, q = z / 100

theorem twoDec_round2 (q : ℚ) : TwoDec (round2 q) := ⟨Rat.floor (q * 100 + 1 / 2), rfl⟩

theorem round2_eq_self {q : ℚ} (h : TwoDec q) : round2 q = q := by
  obtain ⟨z, rfl⟩ := h
  have hz : (z : ℚ) / 100 * 100 = z := by field_simp
  rw [round2_eq_round, hz, round_intCast]

theorem twoDec_add {a b : ℚ} (ha : TwoDec a) (hb : TwoDec b) : TwoDec (a + b) := by
  obtain ⟨x, rfl⟩ := ha
  obtain ⟨y, rfl⟩ := hb
  exact ⟨x + y, by push_cast; ring⟩

theorem twoDec_get_bid_increment (p : ℚ) : TwoDec (get_bid_increment p) := by
  unfold get_bid_increment
  split
  · exact ⟨5, by norm_num⟩
  split
  · exact ⟨10, by norm_num⟩
  split
  · exact ⟨10, by norm_num⟩
  split
  · exact ⟨20, by norm_num⟩
  split
  · exact ⟨20, by norm_num⟩
  · exact ⟨50, by norm_num⟩

theorem get_bid_increment_pos (p : ℚ) : 0 < get_bid_increment p := by
  unfold get_bid_increment
  split
  · norm_num
  split
  · norm_num
  split
  · norm_num
  split
  · norm_num
  split
  · norm_num
  · norm_num

theorem get_bid_increment_ge (p : ℚ) : 5 / 100 ≤ get_bid_increment p := by
  unfold get_bid_increment
  split
  · norm_num
  split
  · norm_num
  split
  · norm_num
  split
  · norm_num
  split
  · norm_num
  · norm_num

theorem round2_ge (q : ℚ) : q - 1 / 200 ≤ round2 q := by
  have h := abs_sub_round (q * 100)
  rw [abs_sub_le_iff] at h
  rw [round2_eq_round]
  linarith [h.1, h.2]

theorem round2_le (q : ℚ) : round2 q ≤ q + 1 / 200 := by
  have h := abs_sub_round (q * 100)
  rw [abs_sub_le_iff] at h
  rw [round2_eq_round]
  linarith [h.1, h.2]

/-! ## Basic facts about the valuation and eligibility functions -/

/-- Every successful `calculate_bid_value` result obeys the
40%-of-purse single-item spend cap (up to the half-cent the final
rounding can add). -/
theorem calculate_bid_value_le {t : Team} {p : Player} {j mb : ℚ}
    (h : calculate_bid_value t p j = some mb) :
    mb ≤ t.purse * (4 / 10) + 1 / 200 := by
  unfold calculate_bid_value at h
  rcases hl : lookupRole t.required_roles p.category with _ | ⟨mn, mx⟩ <;>
    rw [hl] at h
  · exact absurd h (by simp)
  rcases hc : roleCountD t.players p.category with _ | cnt <;> rw [hc] at h
  · exact absurd h (by simp)
  simp only [Option.some.injEq] at h
  subst h
  calc round2 _ ≤ _ + 1 / 200 := round2_le _
    _ ≤ t.purse * (4 / 10) + 1 / 200 := by gcongr; exact min_le_right _ _

/-- `calculate_bid_value` succeeds exactly when the player's category is
a key of `required_roles` and one of the four fixed `role_counts` keys. -/
theorem calculate_bid_value_isSome {t : Team} {p : Player} (j : ℚ)
    (h1 : p.category ∈ stdCategories)
    (h2 : lookupRole t.required_roles p.category ≠ none) :
    ∃ mb, calculate_bid_value t p j = some mb := by
  unfold calculate_bid_value
  rcases hl : lookupRole t.required_roles p.category with _ | ⟨mn, mx⟩
  · exact absurd hl h2
  have hc : roleCountD t.players p.category = some (roleCount t.players p.category) := by
    rw [roleCountD, if_pos h1]
  rw [hc]
  exact ⟨_, rfl⟩

/-- Well-formedness of a team's role table: exactly the situation of
every team the source constructs (`DEFAULT_ROLES` keyed by the four
standard categories).  Guarantees `can_bid` and `calculate_bid_value`
never raise on standard-category players. -/
def rolesOK (t : Team) : Prop :=
  (∀ c ∈ stdCategories, lookupRole t.required_roles c ≠ none) ∧
    ∀ e ∈ t.required_roles, e.1 ∈ stdCategories

theorem defaultTeam_rolesOK : rolesOK defaultTeam := by
  constructor
  · intro c hc
    fin_cases hc <;> simp [defaultTeam, lookupRole]
  · intro e he
    fin_cases he <;> simp [stdCategories]

theorem can_bid_reserve_isSome {t : Team} {p : Player}
    (rr : List (String × ℕ × ℕ)) (hrr : ∀ e ∈ rr, e.1 ∈ stdCategories) :
    ∀ acc, ∃ v, can_bid.reserve t p acc rr = some v := by
  induction rr with
  | nil => intro acc; exact ⟨acc, rfl⟩
  | cons e rest ih =>
    intro acc
    obtain ⟨role, mn, mx⟩ := e
    have hrole : role ∈ stdCategories := hrr (role, mn, mx) (List.mem_cons_self _ _)
    have hrest : ∀ e ∈ rest, e.1 ∈ stdCategories := fun e he =>
      hrr e (List.mem_cons_of_mem _ he)
    have hc : roleCountD t.players role = some (roleCount t.players role) := by
      rw [roleCountD, if_pos hrole]
    by_cases hne : role ≠ p.category
    · simp only [can_bid.reserve, if_pos hne, hc]
      split <;> exact ih hrest _
    · simp only [can_bid.reserve, if_neg hne]
      exact ih hrest _

/-- `can_bid` never raises on a role-table-well-formed team and a
standard-category player. -/
theorem can_bid_isSome {t : Team} {p : Player}
    (h1 : p.category ∈ stdCategories) (hr : rolesOK t) :
    ∃ b, can_bid t p = some b := by
  unfold can_bid
  dsimp only
  split
  · exact ⟨_, rfl⟩
  split
  · exact ⟨_, rfl⟩
  split
  · exact ⟨_, rfl⟩
  rcases hl : lookupRole t.required_roles p.category with _ | ⟨mn, mx⟩
  · exact absurd hl (hr.1 _ h1)
  dsimp only
  have hc : roleCountD t.players p.category = some (roleCount t.players p.category) := by
    rw [roleCountD, if_pos h1]
  rw [hc]
  dsimp only
  split
  · exact ⟨_, rfl⟩
  obtain ⟨v, hv⟩ := can_bid_reserve_isSome t.required_roles hr.2
    ((t.max_squad_size : ℤ) - t.players.length - 1)
  rw [hv]
  dsimp only
  split
  · exact ⟨_, rfl⟩
  split
  · exact ⟨_, rfl⟩
  · exact ⟨_, rfl⟩

/-! ## Structure of a single bidding pass -/

/-- Exhaustive description of one `bidStep`: the team either withdraws
(at the current price) or raises (by the schedule increment, rounded). -/
theorem bidStep_cases {teams : List Team} {player : Player} {jitters : ℕ → ℚ}
    {st st' : BidState} {s : ℕ}
    (h : bidStep teams player jitters st s = some st') :
    (∃ mb, calculate_bid_value (getTeam teams s) player (jitters st.jIdx) = some mb ∧
      (mb ≤ st.price ∨ st.price > (getTeam teams s).purse) ∧
      st' = { st with active := st.active.erase s,
                      events := st.events ++
                        [⟨(getTeam teams s).name, st.price, "Withdrew"⟩],
                      jIdx := st.jIdx + 1 }) ∨
    (∃ mb, calculate_bid_value (getTeam teams s) player (jitters st.jIdx) = some mb ∧
      st.price < mb ∧ st.price ≤ (getTeam teams s).purse ∧
      st' = { st with price := round2 (st.price + get_bid_increment st.price),
                      last := some s,
                      events := st.events ++
                        [⟨(getTeam teams s).name,
                          round2 (st.price + get_bid_increment st.price), "Active"⟩],
                      jIdx := st.jIdx + 1 }) := by
  unfold bidStep at h
  dsimp only at h
  rcases hm : calculate_bid_value (getTeam teams s) player (jitters st.jIdx) with _ | mb <;>
    rw [hm] at h
  · exact absurd h (by simp)
  dsimp only at h
  split at h
  · rename_i hcond
    exact Or.inl ⟨mb, rfl, hcond, (Option.some.inj h).symm⟩
  · rename_i hcond
    push_neg at hcond
    exact Or.inr ⟨mb, rfl, hcond.1, hcond.2, (Option.some.inj h).symm⟩

/-- A `bidStep` succeeds whenever the valuation call cannot raise. -/
theorem bidStep_isSome {teams : List Team} {player : Player} {jitters : ℕ → ℚ}
    (st : BidState) (s : ℕ)
    (h1 : player.category ∈ stdCategories)
    (h2 : ∀ i : ℕ, lookupRole (getTeam teams i).required_roles player.category ≠ none) :
    ∃ st', bidStep teams player jitters st s = some st' := by
  obtain ⟨mb, hmb⟩ := calculate_bid_value_isSome (t := getTeam teams s)
    (jitters st.jIdx) h1 (h2 s)
  unfold bidStep
  dsimp only
  rw [hmb]
  dsimp only
  split <;> exact ⟨_, rfl⟩

theorem bidPass_price_mono {teams : List Team} {player : Player} {jitters : ℕ → ℚ} :
    ∀ {snap : List ℕ} {st st' : BidState},
      bidPass teams player jitters snap st = some st' → st.price ≤ st'.price := by
  intro snap
  induction snap with
  | nil => intro st st' h; cases h; exact le_refl _
  | cons s rest ih =>
    intro st st' h
    unfold bidPass at h
    rcases hs : bidStep teams player jitters st s with _ | st₁ <;> rw [hs] at h
    · exact absurd h (by simp)
    refine le_trans ?_ (ih h)
    rcases bidStep_cases hs with ⟨mb, _, _, rfl⟩ | ⟨mb, _, _, _, rfl⟩
    · exact le_refl _
    · calc st.price ≤ st.price + get_bid_increment st.price - 1 / 200 := by
            linarith [get_bid_increment_ge st.price]
        _ ≤ round2 (st.price + get_bid_increment st.price) := round2_ge _

theorem bidPass_length_le {teams : List Team} {player : Player} {jitters : ℕ → ℚ} :
    ∀ {snap : List ℕ} {st st' : BidState},
      bidPass teams player jitters snap st = some st' →
        st'.active.length ≤ st.active.length := by
  intro snap
  induction snap with
  | nil => intro st st' h; cases h; exact le_refl _
  | cons s rest ih =>
    intro st st' h
    unfold bidPass at h
    rcases hs : bidStep teams player jitters st s with _ | st₁ <;> rw [hs] at h
    · exact absurd h (by simp)
    refine le_trans (ih h) ?_
    rcases bidStep_cases hs with ⟨mb, _, _, rfl⟩ | ⟨mb, _, _, _, rfl⟩
    · exact (st.active.erase_sublist s).length_le
    · exact le_refl _

theorem bidPass_isSome {teams : List Team} {player : Player} {jitters : ℕ → ℚ}
    (h1 : player.category ∈ stdCategories)
    (h2 : ∀ i : ℕ, lookupRole (getTeam teams i).required_roles player.category ≠ none) :
    ∀ (snap : List ℕ) (st : BidState),
      ∃ st', bidPass teams player jitters snap st = some st' := by
  intro snap
  induction snap with
  | nil => intro st; exact ⟨st, rfl⟩
  | cons s rest ih =>
    intro st
    obtain ⟨st₁, hs⟩ := @bidStep_isSome teams player jitters st s h1 h2
    obtain ⟨st', hrest⟩ := ih st₁
    exact ⟨st', by unfold bidPass; rw [hs]; exact hrest⟩

/-! ## Purse bounds -/

theorem foldr_max_nonneg (l : List ℚ) : 0 ≤ l.foldr max 0 := by
  induction l with
  | nil => exact le_refl 0
  | cons x xs ih => exact le_trans ih (le_max_right _ _)

theorem mem_le_foldr_max {l : List ℚ} {x : ℚ} (hx : x ∈ l) : x ≤ l.foldr max 0 := by
  induction l with
  | nil => cases hx
  | cons y ys ih =>
    rcases List.mem_cons.mp hx with rfl | hx'
    · exact le_max_left _ _
    · exact le_trans (ih hx') (le_max_right _ _)

theorem maxPurse_nonneg (teams : List Team) : 0 ≤ maxPurse teams :=
  foldr_max_nonneg _

theorem getTeam_purse_le (teams : List Team) (s : ℕ) :
    (getTeam teams s).purse ≤ maxPurse teams := by
  by_cases hs : s < teams.length
  · refine mem_le_foldr_max (List.mem_map_of_mem Team.purse ?_)
    rw [getTeam, List.getD_eq_getElem teams defaultTeam hs]
    exact List.getElem_mem hs
  · rw [getTeam, List.getD_eq_default _ _ (le_of_not_lt hs)]
    exact maxPurse_nonneg teams

/-- A continuing pass over the whole active set either shrinks the
active set or pushes the price up by at least `9/200`, from a price
still below `bidBound - 1` — the measure argument behind termination of
the source's `while` loop. -/
theorem bidPass_progress {teams : List Team} {player : Player} {jitters : ℕ → ℚ}
    {st st' : BidState} (hne : st.active ≠ [])
    (h : bidPass teams player jitters st.active st = some st') :
    st'.active.length < st.active.length ∨
      (st.price < bidBound teams - 1 ∧ st.price + 9 / 200 ≤ st'.price) := by
  obtain ⟨s, rest, hact⟩ : ∃ s rest, st.active = s :: rest :=
    match st.active, hne with
    | x :: xs, _ => ⟨x, xs, rfl⟩
  rw [hact] at h
  unfold bidPass at h
  rcases hs : bidStep teams player jitters st s with _ | st₁ <;> rw [hs] at h
  · exact absurd h (by simp)
  rcases bidStep_cases hs with ⟨mb, _, _, rfl⟩ | ⟨mb, hmb, hlt, _, rfl⟩
  · -- the first team withdrew: the active set shrank by one
    left
    have hlen : st'.active.length ≤ (st.active.erase s).length := bidPass_length_le h
    rw [hact, List.erase_cons_head] at hlen
    rw [hact]
    simpa using Nat.lt_succ_of_le hlen
  · -- the first team raised: price strictly below the bound went up a step
    right
    have hcap : mb ≤ (getTeam teams s).purse * (4 / 10) + 1 / 200 :=
      calculate_bid_value_le hmb
    have hpurse := getTeam_purse_le teams s
    have hmax0 := maxPurse_nonneg teams
    constructor
    · rw [bidBound]
      nlinarith
    · have h1 : st.price + 9 / 200 ≤ round2 (st.price + get_bid_increment st.price) := by
        have := round2_ge (st.price + get_bid_increment st.price)
        have := get_bid_increment_ge st.price
        linarith
      have h2 := bidPass_price_mono h
      dsimp only at h2
      linarith

/-! ## Termination of the bidding loop -/

/-- Loop measure: the number of `9/200` price steps still available
below `bidBound`. -/
def stepsLeft (teams : List Team) (price : ℚ) : ℕ :=
  (ratCeil ((bidBound teams - price) * 25)).toNat

theorem stepsLeft_mono {teams : List Team} {p q : ℚ} (h : p ≤ q) :
    stepsLeft teams q ≤ stepsLeft teams p := by
  unfold stepsLeft
  rw [ratCeil_eq_intCeil, ratCeil_eq_intCeil]
  have hc : ⌈(bidBound teams - q) * 25⌉ ≤ ⌈(bidBound teams - p) * 25⌉ :=
    Int.ceil_le_ceil (by linarith)
  omega

theorem stepsLeft_lt {teams : List Team} {p q : ℚ}
    (hb : p < bidBound teams - 1) (hstep : p + 9 / 200 ≤ q) :
    stepsLeft teams q < stepsLeft teams p := by
  unfold stepsLeft
  rw [ratCeil_eq_intCeil, ratCeil_eq_intCeil]
  have h3 : 26 ≤ ⌈(bidBound teams - p) * 25⌉ := by
    have : (25 : ℚ) < (bidBound teams - p) * 25 := by linarith
    have := Int.lt_ceil.mpr (show ((25 : ℤ) : ℚ) < (bidBound teams - p) * 25 by
      push_cast; linarith)
    omega
  have h4 : ⌈(bidBound teams - q) * 25⌉ ≤ ⌈(bidBound teams - p) * 25⌉ - 1 := by
    refine Int.ceil_le.mpr ?_
    have hle := Int.le_ceil ((bidBound teams - p) * 25)
    push_cast
    linarith
  omega

theorem bidLoop_isSome {teams : List Team} {player : Player} {jitters : ℕ → ℚ}
    (h1 : player.category ∈ stdCategories)
    (h2 : ∀ i : ℕ, lookupRole (getTeam teams i).required_roles player.category ≠ none) :
    ∀ (fuel : ℕ) (st : BidState),
      st.active.length + stepsLeft teams st.price < fuel →
      ∃ st', bidLoop teams player jitters fuel st = some st' := by
  intro fuel
  induction fuel with
  | zero => intro st h; omega
  | succ n ih =>
    intro st hm
    unfold bidLoop
    by_cases hemp : st.active.isEmpty
    · rw [if_pos hemp]
      exact ⟨st, rfl⟩
    · rw [if_neg hemp]
      dsimp only
      obtain ⟨st₁, hp⟩ := bidPass_isSome h1 h2 st.active st
      rw [hp]
      dsimp only
      by_cases hstop : stopCond st₁.active st₁.last
      · rw [if_pos hstop]
        exact ⟨st₁, rfl⟩
      · rw [if_neg hstop]
        apply ih
        have hne : st.active ≠ [] := by
          intro hx
          rw [hx] at hemp
          exact hemp rfl
        rcases bidPass_progress hne hp with hlt | ⟨hb, hstep⟩
        · have := @stepsLeft_mono teams st.price st₁.price (bidPass_price_mono hp)
          omega
        · have h5 := stepsLeft_lt hb hstep
          have h6 := bidPass_length_le hp
          omega

/-- The fuel `process_bidding` supplies is always sufficient. -/
theorem bid_fuel_sufficient (teams : List Team) (player : Player)
    {interested : List ℕ} (hlen : interested.length ≤ teams.length)
    (jIdx : ℕ) :
    (BidState.mk interested player.base_price none [] jIdx).active.length +
      stepsLeft teams player.base_price < bid_fuel teams player.base_price := by
  dsimp only
  rw [bid_fuel, stepsLeft, bidBound]
  omega

/-! ## Index bounds through the bidding loop -/

theorem bidPass_bounds {teams : List Team} {player : Player} {jitters : ℕ → ℚ}
    {n : ℕ} :
    ∀ {snap : List ℕ} {st st' : BidState},
      bidPass teams player jitters snap st = some st' →
      (∀ s ∈ snap, s < n) → (∀ s ∈ st.active, s < n) →
      (∀ j, st.last = some j → j < n) →
      (∀ s ∈ st'.active, s < n) ∧ ∀ j, st'.last = some j → j < n := by
  intro snap
  induction snap with
  | nil =>
    intro st st' h _ hact hlast
    cases h
    exact ⟨hact, hlast⟩
  | cons s rest ih =>
    intro st st' h hsnap hact hlast
    unfold bidPass at h
    rcases hs : bidStep teams player jitters st s with _ | st₁ <;> rw [hs] at h
    · exact absurd h (by simp)
    have hrest : ∀ x ∈ rest, x < n := fun x hx => hsnap x (List.mem_cons_of_mem _ hx)
    rcases bidStep_cases hs with ⟨mb, _, _, rfl⟩ | ⟨mb, _, _, _, rfl⟩
    · exact ih h hrest
        (fun x hx => hact x (List.mem_of_mem_erase hx)) hlast
    · exact ih h hrest hact
        (fun j hj => by
          obtain rfl : s = j := Option.some.inj hj
          exact hsnap s (List.mem_cons_self _ _))

theorem bidLoop_bounds {teams : List Team} {player : Player} {jitters : ℕ → ℚ}
    {n : ℕ} :
    ∀ {fuel : ℕ} {st st' : BidState},
      bidLoop teams player jitters fuel st = some st' →
      (∀ s ∈ st.active, s < n) → (∀ j, st.last = some j → j < n) →
      (∀ s ∈ st'.active, s < n) ∧ ∀ j, st'.last = some j → j < n := by
  intro fuel
  induction fuel with
  | zero =>
    intro st st' h hact hlast
    unfold bidLoop at h
    split at h
    · cases h
      exact ⟨hact, hlast⟩
    · exact absurd h (by simp)
  | succ m ih =>
    intro st st' h hact hlast
    unfold bidLoop at h
    split at h
    · cases h
      exact ⟨hact, hlast⟩
    rcases hp : bidPass teams player jitters st.active st with _ | st₁ <;>
      rw [hp] at h
    · exact absurd h (by simp)
    have h₁ := bidPass_bounds hp hact hact hlast
    dsimp only at h
    split at h
    · cases h
      exact h₁
    · exact ih h h₁.1 h₁.2

/-! ## Shape of a finalized sale -/

/-- The ledger consistency property of one allocation record:
`Sold` exactly when both the winner and the final price are present. -/
def recordOK (r : AuctionRecord) : Prop :=
  r.status = "Sold" ↔ r.winning_team ≠ none ∧ r.final_price ≠ none

/-- Exhaustive description of `finalize_sale`: the validation either
fails (record reset to `Unsold`, no mutation) or passes (record marked
`Sold`, roster extended, purse debited) — all-or-nothing. -/
theorem finalize_sale_spec {player : Player} {teams : List Team} {widx : ℕ}
    {price : ℚ} {record rec' : AuctionRecord} {teams' : List Team}
    (h : finalize_sale player teams widx price record = some (rec', teams')) :
    (can_bid (getTeam teams widx) player = some false ∧
      rec' = { record with status := "Unsold", final_price := none,
                           winning_team := none } ∧
      teams' = teams) ∨
    (can_bid (getTeam teams widx) player = some true ∧
      rec' = { record with final_price := some price,
                           winning_team := some (getTeam teams widx).name,
                           status := "Sold" } ∧
      teams' = teams.set widx { getTeam teams widx with
        players := (getTeam teams widx).players ++ [player],
        purse := (getTeam teams widx).purse - price }) := by
  unfold finalize_sale at h
  dsimp only at h
  rcases hcb : can_bid (getTeam teams widx) player with _ | b <;> rw [hcb] at h
  · exact absurd h (by simp)
  rcases b with _ | _
  · dsimp only at h
    obtain ⟨h1, h2⟩ := Prod.mk.injEq .. ▸ Option.some.inj h
    exact Or.inl ⟨rfl, h1.symm, h2.symm⟩
  · dsimp only at h
    obtain ⟨h1, h2⟩ := Prod.mk.injEq .. ▸ Option.some.inj h
    exact Or.inr ⟨rfl, h1.symm, h2.symm⟩

/-- Exhaustive description of `_process_bidding`: the produced record
carries the loop's event log; the sale either does not happen (teams
untouched, no winner in the record) or is committed to the leader, whose
index is in range and whose purse covers the final price. -/
theorem process_bidding_spec {teams : List Team} {player : Player}
    {jitters : ℕ → ℚ} {interested : List ℕ} {record rec' : AuctionRecord}
    {jIdx jIdx' : ℕ} {teams' : List Team}
    (hib : ∀ s ∈ interested, s < teams.length)
    (h : process_bidding teams player jitters interested record jIdx =
      some (rec', teams', jIdx')) :
    ∃ st, bidLoop teams player jitters (bid_fuel teams player.base_price)
        ⟨interested, player.base_price, none, [], jIdx⟩ = some st ∧
      rec'.bidding_history = st.events ∧
      ((teams' = teams ∧ rec'.status = record.status ∧
        rec'.final_price = record.final_price ∧
        rec'.winning_team = record.winning_team) ∨
       (teams' = teams ∧ rec'.status = "Unsold" ∧ rec'.final_price = none ∧
        rec'.winning_team = none) ∨
       (∃ w, w < teams.length ∧ st.last = some w ∧
        st.price ≤ (getTeam teams w).purse ∧
        rec'.status = "Sold" ∧ rec'.final_price = some st.price ∧
        rec'.winning_team = some (getTeam teams w).name ∧
        teams' = teams.set w { getTeam teams w with
          players := (getTeam teams w).players ++ [player],
          purse := (getTeam teams w).purse - st.price })) := by
  unfold process_bidding at h
  dsimp only at h
  rcases hl : bidLoop teams player jitters (bid_fuel teams player.base_price)
      ⟨interested, player.base_price, none, [], jIdx⟩ with _ | st <;> rw [hl] at h
  · exact absurd h (by simp)
  dsimp only at h
  refine ⟨st, ?_⟩
  have hb := bidLoop_bounds (n := teams.length) hl (by exact hib) (by simp)
  rcases hlast : st.last with _ | w <;> rw [hlast] at h <;> dsimp only at h
  · simp only [Option.some.injEq, Prod.mk.injEq] at h
    obtain ⟨h1, h2, h3⟩ := h
    subst h1
    exact ⟨rfl, rfl, Or.inl ⟨h2.symm, rfl, rfl, rfl⟩⟩
  have hw : w < teams.length := hb.2 w hlast
  split at h
  · rcases hf : finalize_sale player teams w st.price
        { record with bidding_history := st.events } with _ | ⟨recf, teamsf⟩ <;>
      rw [hf] at h <;> dsimp only at h
    · exact absurd h (by simp)
    simp only [Option.some.injEq, Prod.mk.injEq] at h
    obtain ⟨h1, h2, h3⟩ := h
    subst h1
    subst h2
    rcases finalize_sale_spec hf with ⟨hcb, hrec, hteams⟩ | ⟨hcb, hrec, hteams⟩
    · subst hrec
      exact ⟨rfl, rfl, Or.inr (Or.inl ⟨hteams, rfl, rfl, rfl⟩)⟩
    · subst hrec
      exact ⟨rfl, rfl, Or.inr (Or.inr ⟨w, hw, rfl, by assumption, rfl, rfl, rfl, hteams⟩)⟩
  · simp only [Option.some.injEq, Prod.mk.injEq] at h
    obtain ⟨h1, h2, h3⟩ := h
    subst h1
    exact ⟨rfl, rfl, Or.inl ⟨h2.symm, rfl, rfl, rfl⟩⟩

/-! ## One item of the sequencer loop -/

theorem getTeam_set_self {teams : List Team} {w : ℕ} (t' : Team)
    (h : w < teams.length) : getTeam (teams.set w t') w = t' := by
  rw [getTeam, List.getD_eq_getElem _ _ (by simpa using h), List.getElem_set_self]

theorem getTeam_set_ne {teams : List Team} {w i : ℕ} (t' : Team) (h : i ≠ w) :
    getTeam (teams.set w t') i = getTeam teams i := by
  simp [getTeam, List.getD_eq_getElem?_getD,
    List.getElem?_set_ne (fun hh => h hh.symm : w ≠ i)]

/-- Exhaustive description of one `simulate_auction` loop iteration:
exactly one record is appended, it satisfies the Sold-iff-present
invariant, and the team list either is untouched or has exactly the
winner's roster extended and purse debited by a price it can afford. -/
theorem process_item_spec {jitters : ℕ → ℚ} {capsInit : List TeamCapabilities}
    {st st' : SimState} {p : Player}
    (h : process_item jitters capsInit st p = some st') :
    ∃ rec, st'.history = st.history ++ [rec] ∧ recordOK rec ∧
      st'.teams.length = st.teams.length ∧
      (∀ i, (getTeam st'.teams i).name = (getTeam st.teams i).name ∧
            (getTeam st'.teams i).required_roles =
              (getTeam st.teams i).required_roles) ∧
      ((rec.winning_team = none ∧ st'.teams = st.teams) ∨
       (∃ w price, w < st.teams.length ∧
         rec.winning_team = some (getTeam st.teams w).name ∧
         rec.final_price = some price ∧ price ≤ (getTeam st.teams w).purse ∧
         st'.teams = st.teams.set w { getTeam st.teams w with
           players := (getTeam st.teams w).players ++ [p],
           purse := (getTeam st.teams w).purse - price })) := by
  unfold process_item at h
  dsimp only at h
  split at h
  · -- no interested team: the bare record is appended
    cases h
    refine ⟨create_auction_record p, rfl, ?_, rfl, fun i => ⟨rfl, rfl⟩,
      Or.inl ⟨rfl, rfl⟩⟩
    constructor
    · intro hs
      exact absurd hs (by simp [create_auction_record])
    · intro ⟨hw, _⟩
      exact absurd rfl hw
  · rcases hpb : process_bidding st.teams p jitters _ (create_auction_record p)
        st.jIdx with _ | ⟨rec', teams', jIdx'⟩ <;> rw [hpb] at h
    · exact absurd h (by simp)
    cases h
    have hib : ∀ s ∈ (List.range st.teams.length).filter (fun i =>
        decide ((getTeam st.teams i).purse ≥ p.base_price) &&
          can_accommodate (capsInit.getD i {}) p), s < st.teams.length := by
      intro s hs
      exact List.mem_range.mp (List.mem_of_mem_filter hs)
    obtain ⟨stb, _, hhist, hout⟩ := process_bidding_spec hib hpb
    refine ⟨rec', rfl, ?_, ?_, ?_, ?_⟩
    · -- recordOK
      rcases hout with ⟨_, hs, hf, hw⟩ | ⟨_, hs, hf, hw⟩ | ⟨w, _, _, _, hs, hf, hw, _⟩
      · constructor
        · intro hsold
          rw [hs] at hsold
          exact absurd hsold (by simp [create_auction_record])
        · intro ⟨hww, _⟩
          rw [hw] at hww
          exact absurd rfl hww
      · constructor
        · intro hsold
          rw [hs] at hsold
          exact absurd hsold (by simp)
        · intro ⟨hww, _⟩
          rw [hw] at hww
          exact absurd rfl hww
      · exact ⟨fun _ => ⟨by simp [hw], by simp [hf]⟩, fun _ => hs⟩
    · -- length preserved
      rcases hout with ⟨hteams, _⟩ | ⟨hteams, _⟩ | ⟨w, _, _, _, _, _, _, hteams⟩ <;>
        simp [hteams]
    · -- names and role tables preserved
      intro i
      rcases hout with ⟨hteams, _⟩ | ⟨hteams, _⟩ | ⟨w, hw, _, _, _, _, _, hteams⟩
      · rw [hteams]
        exact ⟨rfl, rfl⟩
      · rw [hteams]
        exact ⟨rfl, rfl⟩
      · rw [hteams]
        by_cases hiw : i = w
        · subst hiw
          rw [getTeam_set_self _ hw]
          exact ⟨rfl, rfl⟩
        · rw [getTeam_set_ne _ hiw]
          exact ⟨rfl, rfl⟩
    · -- sale description
      rcases hout with ⟨hteams, _, hf, hw⟩ | ⟨hteams, _, hf, hw⟩ |
        ⟨w, hwlt, _, hple, _, hf, hw, hteams⟩
      · exact Or.inl ⟨by rw [hw, create_auction_record], hteams⟩
      · exact Or.inl ⟨hw, hteams⟩
      · exact Or.inr ⟨w, stb.price, hwlt, hw, hf, hple, hteams⟩

/-! ## Whole-run bookkeeping -/

/-- Total final price of the ledger records won by bidder `name`. -/
def wonSum (ledger : List AuctionRecord) (name : String) : ℚ :=
  ((ledger.filter (fun r => decide (r.winning_team = some name))).map
    (fun r => r.final_price.getD 0)).sum

theorem wonSum_nil (name : String) : wonSum [] name = 0 := rfl

theorem wonSum_cons (r : AuctionRecord) (rs : List AuctionRecord) (name : String) :
    wonSum (r :: rs) name =
      (if r.winning_team = some name then r.final_price.getD 0 else 0) +
        wonSum rs name := by
  unfold wonSum
  rw [List.filter_cons]
  by_cases h : r.winning_team = some name <;> simp [h]

/-- Every run appends exactly one well-formed record per processed item. -/
theorem run_items_history {jitters : ℕ → ℚ} {capsInit : List TeamCapabilities} :
    ∀ {items : List Player} {st st' : SimState},
      run_items jitters capsInit items st = some st' →
      ∃ added, st'.history = st.history ++ added ∧
        added.length = items.length ∧ ∀ r ∈ added, recordOK r := by
  intro items
  induction items with
  | nil =>
    intro st st' h
    cases h
    exact ⟨[], by simp, rfl, by simp⟩
  | cons p ps ih =>
    intro st st' h
    unfold run_items at h
    rcases hi : process_item jitters capsInit st p with _ | st₁ <;> rw [hi] at h
    · exact absurd h (by simp)
    obtain ⟨rec, hh1, hok, _, _, _⟩ := process_item_spec hi
    obtain ⟨added, hh2, hlen, hall⟩ := ih h
    refine ⟨rec :: added, ?_, by simp [hlen], ?_⟩
    · rw [hh2, hh1]
      simp
    · intro r hr
      rcases List.mem_cons.mp hr with rfl | hr'
      · exact hok
      · exact hall r hr'

/-- Team count, names and role tables are invariant over a run. -/
theorem run_items_teams_inv {jitters : ℕ → ℚ} {capsInit : List TeamCapabilities} :
    ∀ {items : List Player} {st st' : SimState},
      run_items jitters capsInit items st = some st' →
      st'.teams.length = st.teams.length ∧
        ∀ i, (getTeam st'.teams i).name = (getTeam st.teams i).name ∧
          (getTeam st'.teams i).required_roles =
            (getTeam st.teams i).required_roles := by
  intro items
  induction items with
  | nil =>
    intro st st' h
    cases h
    exact ⟨rfl, fun i => ⟨rfl, rfl⟩⟩
  | cons p ps ih =>
    intro st st' h
    unfold run_items at h
    rcases hi : process_item jitters capsInit st p with _ | st₁ <;> rw [hi] at h
    · exact absurd h (by simp)
    obtain ⟨rec, _, _, hlen₁, hinv₁, _⟩ := process_item_spec hi
    obtain ⟨hlen₂, hinv₂⟩ := ih h
    exact ⟨hlen₂.trans hlen₁,
      fun i => ⟨(hinv₂ i).1.trans (hinv₁ i).1, (hinv₂ i).2.trans (hinv₁ i).2⟩⟩

/-- Purses never go negative during a run (each commit is gated on
`final price ≤ purse`). -/
theorem run_items_nonneg {jitters : ℕ → ℚ} {capsInit : List TeamCapabilities} :
    ∀ {items : List Player} {st st' : SimState},
      run_items jitters capsInit items st = some st' →
      (∀ t ∈ st.teams, 0 ≤ t.purse) → ∀ t ∈ st'.teams, 0 ≤ t.purse := by
  intro items
  induction items with
  | nil =>
    intro st st' h h0
    cases h
    exact h0
  | cons p ps ih =>
    intro st st' h h0
    unfold run_items at h
    rcases hi : process_item jitters capsInit st p with _ | st₁ <;> rw [hi] at h
    · exact absurd h (by simp)
    obtain ⟨rec, _, _, _, _, hsale⟩ := process_item_spec hi
    refine ih h ?_
    rcases hsale with ⟨_, hteams⟩ | ⟨w, price, hw, _, _, hple, hteams⟩
    · rw [hteams]
      exact h0
    · rw [hteams]
      intro t ht
      rcases List.mem_or_eq_of_mem_set ht with ht' | rfl
      · exact h0 t ht'
      · have h0w : 0 ≤ (getTeam st.teams w).purse - price := by linarith
        exact h0w

theorem map_name_eq {l l' : List Team} (hlen : l'.length = l.length)
    (hn : ∀ i, (getTeam l' i).name = (getTeam l i).name) :
    l'.map Team.name = l.map Team.name := by
  refine List.ext_getElem (by simp [hlen]) ?_
  intro i h1 h2
  have := hn i
  rw [getTeam, getTeam, List.getD_eq_getElem l' defaultTeam (by simpa using h1),
    List.getD_eq_getElem l defaultTeam (by simpa using h2)] at this
  simpa using this

/-- The final purse of every bidder is its starting purse minus the sum
of the final prices of the records it won, provided bidder names are
pairwise distinct. -/
theorem run_items_purse {jitters : ℕ → ℚ} {capsInit : List TeamCapabilities} :
    ∀ {items : List Player} {st st' : SimState},
      run_items jitters capsInit items st = some st' →
      (st.teams.map Team.name).Nodup →
      ∃ added, st'.history = st.history ++ added ∧
        ∀ i < st.teams.length,
          (getTeam st'.teams i).purse =
            (getTeam st.teams i).purse -
              wonSum added (getTeam st.teams i).name := by
  intro items
  induction items with
  | nil =>
    intro st st' h _
    cases h
    exact ⟨[], by simp, fun i _ => by rw [wonSum_nil]; ring⟩
  | cons p ps ih =>
    intro st st' h hnd
    unfold run_items at h
    rcases hi : process_item jitters capsInit st p with _ | st₁ <;> rw [hi] at h
    · exact absurd h (by simp)
    obtain ⟨rec, hh1, _, hlen₁, hinv₁, hsale⟩ := process_item_spec hi
    have hnames : st₁.teams.map Team.name = st.teams.map Team.name :=
      map_name_eq hlen₁ fun i => (hinv₁ i).1
    obtain ⟨added, hh2, heq⟩ := ih h (by rwa [hnames])
    refine ⟨rec :: added, by rw [hh2, hh1]; simp, ?_⟩
    intro i hi'
    have hi₁ : i < st₁.teams.length := by rwa [hlen₁]
    have hstep := heq i hi₁
    rw [(hinv₁ i).1] at hstep
    rw [hstep, wonSum_cons]
    rcases hsale with ⟨hwin, hteams⟩ | ⟨w, price, hw, hwin, hprice, _, hteams⟩
    · have hne : ¬rec.winning_team = some (getTeam st.teams i).name := by
        rw [hwin]
        simp
      rw [if_neg hne, hteams]
      ring
    · by_cases hiw : i = w
      · subst hiw
        have : getTeam st₁.teams i = { getTeam st.teams i with
            players := (getTeam st.teams i).players ++ [p],
            purse := (getTeam st.teams i).purse - price } := by
          rw [hteams]
          exact getTeam_set_self _ hw
        rw [this, if_pos hwin, hprice]
        dsimp only
        simp [Option.getD]
        ring
      · have hnamene : (getTeam st.teams w).name ≠ (getTeam st.teams i).name := by
          intro hcontra
          have hwl : w < (st.teams.map Team.name).length := by simpa using hw
          have hil : i < (st.teams.map Team.name).length := by simpa using hi'
          have hwn : (st.teams.map Team.name)[w] = (st.teams.map Team.name)[i] := by
            rw [List.getElem_map, List.getElem_map,
              ← List.getD_eq_getElem st.teams defaultTeam hw,
              ← List.getD_eq_getElem st.teams defaultTeam hi']
            exact hcontra
          exact (fun hiw' => hiw hiw'.symm) (hnd.getElem_inj_iff.mp hwn)
        have hne : ¬rec.winning_team = some (getTeam st.teams i).name := by
          rw [hwin]
          simp [hnamene]
        have : getTeam st₁.teams i = getTeam st.teams i := by
          rw [hteams]
          exact getTeam_set_ne _ hiw
        rw [this, if_neg hne]
        ring

theorem run_items_cons {jitters : ℕ → ℚ} {capsInit : List TeamCapabilities}
    (x : Player) (l : List Player) (st : SimState) :
    run_items jitters capsInit (x :: l) st =
      (process_item jitters capsInit st x).bind (run_items jitters capsInit l) := by
  rw [run_items]
  rcases process_item jitters capsInit st x with _ | st₁ <;> rfl

/-- Sequential decomposition of a run. -/
theorem run_items_append {jitters : ℕ → ℚ} {capsInit : List TeamCapabilities} :
    ∀ (xs ys : List Player) (st : SimState),
      run_items jitters capsInit (xs ++ ys) st =
        (run_items jitters capsInit xs st).bind (run_items jitters capsInit ys) := by
  intro xs
  induction xs with
  | nil => intro ys st; rfl
  | cons x xs ih =>
    intro ys st
    rw [List.cons_append, run_items_cons, run_items_cons, Option.bind_assoc]
    rcases process_item jitters capsInit st x with _ | st₁
    · rfl
    · exact ih ys st₁

/-! ## Totality of a run (no uncaught exception, loop terminates) -/

theorem rolesOK_congr {t t' : Team}
    (h : t.required_roles = t'.required_roles) (ht' : rolesOK t') : rolesOK t := by
  unfold rolesOK at ht' ⊢
  rw [h]
  exact ht'

theorem finalize_sale_isSome {player : Player} {teams : List Team} {widx : ℕ}
    (price : ℚ) (record : AuctionRecord)
    (hcat : player.category ∈ stdCategories)
    (hrw : rolesOK (getTeam teams widx)) :
    ∃ out, finalize_sale player teams widx price record = some out := by
  obtain ⟨b, hb⟩ := can_bid_isSome hcat hrw
  unfold finalize_sale
  dsimp only
  rw [hb]
  cases b <;> exact ⟨_, rfl⟩

theorem process_bidding_isSome {teams : List Team} {player : Player}
    {jitters : ℕ → ℚ} {interested : List ℕ} (record : AuctionRecord) (jIdx : ℕ)
    (hcat : player.category ∈ stdCategories)
    (hroles : ∀ i : ℕ, rolesOK (getTeam teams i))
    (hlen : interested.length ≤ teams.length) :
    ∃ out, process_bidding teams player jitters interested record jIdx = some out := by
  have h2 : ∀ i : ℕ, lookupRole (getTeam teams i).required_roles player.category ≠ none :=
    fun i => (hroles i).1 _ hcat
  obtain ⟨st, hl⟩ := bidLoop_isSome hcat h2 (bid_fuel teams player.base_price)
    ⟨interested, player.base_price, none, [], jIdx⟩
    (bid_fuel_sufficient teams player hlen jIdx)
  unfold process_bidding
  dsimp only
  rw [hl]
  dsimp only
  rcases hlast : st.last with _ | w <;> dsimp only
  · exact ⟨_, rfl⟩
  split
  · obtain ⟨⟨rec', teams'⟩, hf⟩ := @finalize_sale_isSome player teams w
      st.price { record with bidding_history := st.events } hcat (hroles w)
    rw [hf]
    exact ⟨_, rfl⟩
  · exact ⟨_, rfl⟩

theorem process_item_isSome {jitters : ℕ → ℚ} {capsInit : List TeamCapabilities}
    {st : SimState} {p : Player}
    (hcat : p.category ∈ stdCategories)
    (hroles : ∀ i : ℕ, rolesOK (getTeam st.teams i)) :
    ∃ st', process_item jitters capsInit st p = some st' := by
  unfold process_item
  dsimp only
  split
  · exact ⟨_, rfl⟩
  obtain ⟨⟨rec', teams', jIdx'⟩, hpb⟩ := @process_bidding_isSome
    st.teams p jitters
    ((List.range st.teams.length).filter fun i =>
      decide ((getTeam st.teams i).purse ≥ p.base_price) &&
        can_accommodate (capsInit.getD i {}) p)
    (create_auction_record p) st.jIdx hcat hroles
    (le_trans (List.length_filter_le _ _) (by simp))
  rw [hpb]
  exact ⟨_, rfl⟩

theorem run_items_isSome {jitters : ℕ → ℚ} {capsInit : List TeamCapabilities} :
    ∀ {items : List Player} {st : SimState},
      (∀ p ∈ items, p.category ∈ stdCategories) →
      (∀ i : ℕ, rolesOK (getTeam st.teams i)) →
      ∃ st', run_items jitters capsInit items st = some st' := by
  intro items
  induction items with
  | nil => intro st _ _; exact ⟨st, rfl⟩
  | cons p ps ih =>
    intro st hcat hroles
    obtain ⟨st₁, h₁⟩ := @process_item_isSome jitters capsInit st p
      (hcat p (List.mem_cons_self _ _)) hroles
    obtain ⟨rec, _, _, _, hinv, _⟩ := process_item_spec h₁
    obtain ⟨st', h₂⟩ := @ih st₁
      (fun q hq => hcat q (List.mem_cons_of_mem _ hq))
      (fun i => rolesOK_congr (hinv i).2 (hroles i))
    exact ⟨st', by rw [run_items_cons, h₁]; exact h₂⟩

/-! ## The sequencer's ordering is a permutation of the catalog -/

theorem insertStable_perm (x : Player) (l : List Player) :
    List.Perm (insertStable x l) (x :: l) := by
  induction l with
  | nil => exact List.Perm.refl _
  | cons y ys ih =>
    unfold insertStable
    split
    · exact List.Perm.refl _
    · exact ((ih.cons y).trans (List.Perm.swap x y ys))

theorem foldl_insertStable_perm :
    ∀ (l acc : List Player),
      List.Perm (l.foldl (fun acc x => insertStable x acc) acc) (acc ++ l) := by
  intro l
  induction l with
  | nil => intro acc; simp
  | cons x xs ih =>
    intro acc
    show List.Perm (xs.foldl (fun acc x => insertStable x acc) (insertStable x acc))
      (acc ++ x :: xs)
    exact (ih _).trans
      (((insertStable_perm x acc).append_right xs).trans List.perm_middle.symm)

theorem sortStable_perm (l : List Player) : List.Perm (sortStable l) l := by
  have h := foldl_insertStable_perm l []
  simpa [sortStable] using h

theorem flatMap_sortStable_perm (f : String → List Player) :
    ∀ names : List String,
      List.Perm (names.flatMap fun n => sortStable (f n)) (names.flatMap f) := by
  intro names
  induction names with
  | nil => exact List.Perm.refl _
  | cons n ns ih =>
    simp only [List.flatMap_cons]
    exact (sortStable_perm (f n)).append ih

theorem flatMap_congr_mem {α β : Type _} {l : List α} {f g : α → List β}
    (h : ∀ a ∈ l, f a = g a) : l.flatMap f = l.flatMap g := by
  induction l with
  | nil => rfl
  | cons a as ih =>
    simp only [List.flatMap_cons]
    rw [h a (List.mem_cons_self _ _), ih fun a ha => h a (List.mem_cons_of_mem _ ha)]

/-- Grouping a list by the first matching name, then collecting the
leftovers, is a permutation — provided the names are pairwise distinct. -/
theorem grouping_perm :
    ∀ (names : List String), names.Nodup → ∀ (players : List Player),
      List.Perm
        ((names.flatMap fun n =>
          players.filter fun p => decide (p.set_2025 = some n)) ++
        players.filter fun p => p.set_2025.all fun s => decide (s ∉ names))
        players := by
  intro names
  induction names with
  | nil =>
    intro _ players
    simp only [List.flatMap_nil, List.nil_append]
    have : ∀ p : Player, (p.set_2025.all fun s => decide (s ∉ ([] : List String))) = true := by
      intro p
      cases p.set_2025 <;> simp
    rw [List.filter_eq_self.mpr fun a _ => this a]
  | cons n ns ih =>
    intro hnd players
    have hn : n ∉ ns := (List.nodup_cons.mp hnd).1
    have hns : ns.Nodup := (List.nodup_cons.mp hnd).2
    simp only [List.flatMap_cons]
    -- split the catalog on membership in the first group
    have hsplit : List.Perm (players.filter (fun p => decide (p.set_2025 = some n)) ++
        players.filter (fun p => !decide (p.set_2025 = some n))) players :=
      List.filter_append_perm _ players
    set rest := players.filter (fun p => !decide (p.set_2025 = some n)) with hrest
    -- the later groups are unchanged by removing the first group
    have hflat : (ns.flatMap fun m =>
        players.filter fun p => decide (p.set_2025 = some m)) =
        ns.flatMap fun m => rest.filter fun p => decide (p.set_2025 = some m) := by
      refine flatMap_congr_mem ?_
      intro m hm
      have hmn : m ≠ n := fun hc => hn (hc ▸ hm)
      rw [hrest, List.filter_filter]
      refine (List.filter_congr ?_).symm
      intro p _
      rcases hps : p.set_2025 with _ | s
      · simp
      · by_cases hsm : s = m
        · subst hsm
          simp [hmn]
        · simp [hsm]
    -- the leftovers of the longer name list are the leftovers of `rest`
    have hrem : players.filter (fun p => p.set_2025.all fun s =>
        decide (s ∉ n :: ns)) =
        rest.filter fun p => p.set_2025.all fun s => decide (s ∉ ns) := by
      rw [hrest, List.filter_filter]
      refine (List.filter_congr ?_).symm
      intro p _
      rcases hps : p.set_2025 with _ | s
      · simp
      · by_cases hsn : s = n
        · subst hsn
          simp
        · by_cases hsns : s ∈ ns <;> simp [hsn, hsns]
    have hstep : (players.filter (fun p => decide (p.set_2025 = some n)) ++
          ns.flatMap fun m => players.filter fun p => decide (p.set_2025 = some m)) ++
            players.filter (fun p => p.set_2025.all fun s => decide (s ∉ n :: ns)) =
        players.filter (fun p => decide (p.set_2025 = some n)) ++
            ((ns.flatMap fun m => rest.filter fun p => decide (p.set_2025 = some m)) ++
              rest.filter fun p => p.set_2025.all fun s => decide (s ∉ ns)) := by
      rw [List.append_assoc, hflat, hrem]
    rw [hstep]
    exact ((ih hns rest).append_left _).trans hsplit

/-- `_get_sorted_players` permutes the catalog: every player is
auctioned exactly once. -/
theorem get_sorted_players_perm (players : List Player) :
    List.Perm (get_sorted_players players) players := by
  unfold get_sorted_players
  refine (List.Perm.append (flatMap_sortStable_perm _ setOrder)
    (sortStable_perm _)).trans ?_
  exact grouping_perm setOrder (by decide) players

/-! ## The increment chain of a bid log -/

/-- The `"Active"` events of a bid log. -/
def activeEvents (events : List BidEvent) : List BidEvent :=
  events.filter fun e => decide (e.status = "Active")

/-- Two consecutive active bids: the later is the earlier plus exactly
the schedule increment, in particular strictly larger. -/
def chainStep (a b : BidEvent) : Prop :=
  b.bid_amount = a.bid_amount + get_bid_increment a.bid_amount ∧
    a.bid_amount < b.bid_amount

/-- Loop invariant tying the log to the running price: active events are
increment-chained, and the last one (if any) sits at the current price,
which is then a whole number of hundredths. -/
def eventsInv (events : List BidEvent) (price : ℚ) : Prop :=
  List.Chain' chainStep (activeEvents events) ∧
    ∀ e ∈ (activeEvents events).getLast?, e.bid_amount = price ∧ TwoDec price

theorem eventsInv_nil (price : ℚ) : eventsInv [] price :=
  ⟨List.chain'_nil, by simp [activeEvents]⟩

theorem activeEvents_append (a b : List BidEvent) :
    activeEvents (a ++ b) = activeEvents a ++ activeEvents b :=
  List.filter_append ..

theorem eventsInv_withdraw {events : List BidEvent} {price : ℚ}
    (h : eventsInv events price) (t : String) (p : ℚ) :
    eventsInv (events ++ [⟨t, p, "Withdrew"⟩]) price := by
  unfold eventsInv at h ⊢
  rw [activeEvents_append]
  have hw : activeEvents [⟨t, p, "Withdrew"⟩] = [] := rfl
  rw [hw, List.append_nil]
  exact h

theorem eventsInv_raise {events : List BidEvent} {price : ℚ}
    (h : eventsInv events price) (t : String) :
    eventsInv (events ++ [⟨t, round2 (price + get_bid_increment price), "Active"⟩])
      (round2 (price + get_bid_increment price)) := by
  obtain ⟨hchain, hlast⟩ := h
  have hact : activeEvents (events ++
      [⟨t, round2 (price + get_bid_increment price), "Active"⟩]) =
      activeEvents events ++
        [⟨t, round2 (price + get_bid_increment price), "Active"⟩] := by
    rw [activeEvents_append]
    rfl
  constructor
  · rw [hact]
    refine List.chain'_append.mpr ⟨hchain, List.chain'_singleton _, ?_⟩
    intro x hx y hy
    obtain rfl : y = ⟨t, round2 (price + get_bid_increment price), "Active"⟩ := by
      have := hy
      simp at this
      exact this.symm
    obtain ⟨hxp, htd⟩ := hlast x hx
    have hround : round2 (price + get_bid_increment price) =
        price + get_bid_increment price :=
      round2_eq_self (twoDec_add htd (twoDec_get_bid_increment price))
    constructor
    · dsimp only
      rw [hxp, hround]
    · dsimp only
      rw [hxp, hround]
      linarith [get_bid_increment_pos price]
  · intro e he
    rw [hact, List.getLast?_concat] at he
    obtain rfl := Option.mem_unique he (by rfl)
    exact ⟨rfl, twoDec_round2 _⟩

theorem bidStep_eventsInv {teams : List Team} {player : Player} {jitters : ℕ → ℚ}
    {st st' : BidState} {s : ℕ}
    (h : bidStep teams player jitters st s = some st')
    (hinv : eventsInv st.events st.price) : eventsInv st'.events st'.price := by
  rcases bidStep_cases h with ⟨mb, _, _, rfl⟩ | ⟨mb, _, _, _, rfl⟩
  · exact eventsInv_withdraw hinv _ _
  · exact eventsInv_raise hinv _

theorem bidPass_eventsInv {teams : List Team} {player : Player} {jitters : ℕ → ℚ} :
    ∀ {snap : List ℕ} {st st' : BidState},
      bidPass teams player jitters snap st = some st' →
      eventsInv st.events st.price → eventsInv st'.events st'.price := by
  intro snap
  induction snap with
  | nil =>
    intro st st' h hinv
    cases h
    exact hinv
  | cons s rest ih =>
    intro st st' h hinv
    unfold bidPass at h
    rcases hs : bidStep teams player jitters st s with _ | st₁ <;> rw [hs] at h
    · exact absurd h (by simp)
    exact ih h (bidStep_eventsInv hs hinv)

theorem bidLoop_eventsInv {teams : List Team} {player : Player} {jitters : ℕ → ℚ} :
    ∀ {fuel : ℕ} {st st' : BidState},
      bidLoop teams player jitters fuel st = some st' →
      eventsInv st.events st.price → eventsInv st'.events st'.price := by
  intro fuel
  induction fuel with
  | zero =>
    intro st st' h hinv
    unfold bidLoop at h
    split at h
    · cases h
      exact hinv
    · exact absurd h (by simp)
  | succ n ih =>
    intro st st' h hinv
    unfold bidLoop at h
    split at h
    · cases h
      exact hinv
    rcases hp : bidPass teams player jitters st.active st with _ | st₁ <;> rw [hp] at h
    · exact absurd h (by simp)
    dsimp only at h
    split at h
    · cases h
      exact bidPass_eventsInv hp hinv
    · exact ih h (bidPass_eventsInv hp hinv)

/-- Every record a run appends carries an increment-chained bid log. -/
theorem process_item_chain {jitters : ℕ → ℚ} {capsInit : List TeamCapabilities}
    {st st' : SimState} {p : Player}
    (h : process_item jitters capsInit st p = some st') :
    ∃ rec, st'.history = st.history ++ [rec] ∧
      List.Chain' chainStep (activeEvents rec.bidding_history) := by
  unfold process_item at h
  dsimp only at h
  split at h
  · cases h
    exact ⟨create_auction_record p, rfl, List.chain'_nil⟩
  · rcases hpb : process_bidding st.teams p jitters _ (create_auction_record p)
        st.jIdx with _ | ⟨rec', teams', jIdx'⟩ <;> rw [hpb] at h
    · exact absurd h (by simp)
    cases h
    have hib : ∀ s ∈ (List.range st.teams.length).filter (fun i =>
        decide ((getTeam st.teams i).purse ≥ p.base_price) &&
          can_accommodate (capsInit.getD i {}) p), s < st.teams.length :=
      fun s hs => List.mem_range.mp (List.mem_of_mem_filter hs)
    obtain ⟨stb, hloop, hhist, _⟩ := process_bidding_spec hib hpb
    refine ⟨rec', rfl, ?_⟩
    rw [hhist]
    exact (bidLoop_eventsInv hloop (eventsInv_nil _)).1

theorem run_items_chain {jitters : ℕ → ℚ} {capsInit : List TeamCapabilities} :
    ∀ {items : List Player} {st st' : SimState},
      run_items jitters capsInit items st = some st' →
      ∀ r ∈ st'.history, r ∈ st.history ∨
        List.Chain' chainStep (activeEvents r.bidding_history) := by
  intro items
  induction items with
  | nil =>
    intro st st' h r hr
    cases h
    exact Or.inl hr
  | cons p ps ih =>
    intro st st' h r hr
    unfold run_items at h
    rcases hi : process_item jitters capsInit st p with _ | st₁ <;> rw [hi] at h
    · exact absurd h (by simp)
    rcases ih h r hr with hr₁ | hchain
    · obtain ⟨rec, hh, hc⟩ := process_item_chain hi
      rw [hh] at hr₁
      rcases List.mem_append.mp hr₁ with hr₂ | hr₂
      · exact Or.inl hr₂
      · obtain rfl : r = rec := by simpa using hr₂
        exact Or.inr hc
    · exact Or.inr hchain

/-! ## Destructuring a full run -/

theorem simulate_auction_spec {teams : List Team} {players : List Player}
    {jitters : ℕ → ℚ} {ledger : List AuctionRecord} {final : List Team}
    (h : simulate_auction teams players jitters = some (ledger, final)) :
    ∃ stF, run_items jitters (teams.map calculate_capabilities)
        (get_sorted_players players) ⟨teams, [], 0⟩ = some stF ∧
      ledger = stF.history ∧ final = stF.teams := by
  unfold simulate_auction at h
  dsimp only at h
  rcases hr : run_items jitters (teams.map calculate_capabilities)
      (get_sorted_players players) ⟨teams, [], 0⟩ with _ | stF <;> rw [hr] at h
  · exact absurd h (by simp)
  dsimp only at h
  simp only [Option.some.injEq, Prod.mk.injEq] at h
  exact ⟨stF, rfl, h.1.symm, h.2.symm⟩

/-! ## Further support lemmas for the claims -/

/-- The source's six-branch increment table collapses to the four-step
schedule stated in the specification. -/
theorem get_bid_increment_claim_schedule (p : ℚ) :
    get_bid_increment p =
      (if p ≤ 1 then 5 / 100 else if p ≤ 3 then 10 / 100
       else if p ≤ 10 then 20 / 100 else 50 / 100) := by
  unfold get_bid_increment
  split_ifs <;> first | rfl | linarith

/-- `_process_bidding` never changes the record's player name. -/
theorem process_bidding_player_name {teams : List Team} {player : Player}
    {jitters : ℕ → ℚ} {interested : List ℕ} {record rec' : AuctionRecord}
    {jIdx jIdx' : ℕ} {teams' : List Team}
    (h : process_bidding teams player jitters interested record jIdx =
      some (rec', teams', jIdx')) :
    rec'.player_name = record.player_name := by
  unfold process_bidding at h
  dsimp only at h
  rcases hl : bidLoop teams player jitters (bid_fuel teams player.base_price)
      ⟨interested, player.base_price, none, [], jIdx⟩ with _ | st <;> rw [hl] at h
  · exact absurd h (by simp)
  dsimp only at h
  rcases hlast : st.last with _ | w <;> rw [hlast] at h <;> dsimp only at h
  · simp only [Option.some.injEq, Prod.mk.injEq] at h
    rw [← h.1]
  split at h
  · rcases hf : finalize_sale player teams w st.price
        { record with bidding_history := st.events } with _ | ⟨recf, teamsf⟩ <;>
      rw [hf] at h <;> dsimp only at h
    · exact absurd h (by simp)
    simp only [Option.some.injEq, Prod.mk.injEq] at h
    obtain ⟨h1, _⟩ := h
    subst h1
    rcases finalize_sale_spec hf with ⟨_, hrec, _⟩ | ⟨_, hrec, _⟩ <;> rw [hrec]
  · simp only [Option.some.injEq, Prod.mk.injEq] at h
    rw [← h.1]

/-- Each appended record snapshots the processed item's name. -/
theorem process_item_player_name {jitters : ℕ → ℚ}
    {capsInit : List TeamCapabilities} {st st' : SimState} {p : Player}
    (h : process_item jitters capsInit st p = some st') :
    ∃ rec, st'.history = st.history ++ [rec] ∧ rec.player_name = p.name := by
  unfold process_item at h
  dsimp only at h
  split at h
  · cases h
    exact ⟨create_auction_record p, rfl, rfl⟩
  · rcases hpb : process_bidding st.teams p jitters _ (create_auction_record p)
        st.jIdx with _ | ⟨rec', teams', jIdx'⟩ <;> rw [hpb] at h
    · exact absurd h (by simp)
    cases h
    exact ⟨rec', rfl, process_bidding_player_name hpb⟩

/-- The ledger names the processed items, in processing order. -/
theorem run_items_names {jitters : ℕ → ℚ} {capsInit : List TeamCapabilities} :
    ∀ {items : List Player} {st st' : SimState},
      run_items jitters capsInit items st = some st' →
      ∃ added, st'.history = st.history ++ added ∧
        added.map (fun r => r.player_name) = items.map Player.name := by
  intro items
  induction items with
  | nil =>
    intro st st' h
    cases h
    exact ⟨[], by simp, rfl⟩
  | cons p ps ih =>
    intro st st' h
    unfold run_items at h
    rcases hi : process_item jitters capsInit st p with _ | st₁ <;> rw [hi] at h
    · exact absurd h (by simp)
    obtain ⟨rec, hh1, hname⟩ := process_item_player_name hi
    obtain ⟨added, hh2, hmap⟩ := ih h
    refine ⟨rec :: added, ?_, ?_⟩
    · rw [hh2, hh1]
      simp
    · simp [hname, hmap]

/-! ## Spec-side definition for the finalize-gate comparison (claim C1) -/

/-- Modelled from the spec: section 4.4 says `Finalizing` "re-validates
the leader's eligibility (4.1) against the *final* price (not just the
starting price)".  This is the 4.1 eligibility predicate (`can_bid`)
with the item's starting price replaced by the candidate sale price in
both places the price enters (the affordability test and the
minimum-squad-cost reserve).  It exists only to compare the spec's
description of the finalize gate with the gate the code implements. -/
def can_bid_at_price (t : Team) (player : Player) (price : ℚ) : Option Bool :=
  if price > t.purse then some false
  else if t.players.length ≥ t.max_squad_size then some false
  else
    let overseas_count := get_overseas_count t
    if player.nationality ≠ "India" ∧ overseas_count ≥ t.max_overseas then some false
    else
      match lookupRole t.required_roles player.category with
      | none => none
      | some (_, max_req) =>
        match roleCountD t.players player.category with
        | none => none
        | some cnt =>
          if cnt ≥ max_req then some false
          else
            let current_squad_size := t.players.length
            let slots0 : ℤ := (t.max_squad_size : ℤ) - current_squad_size - 1
            match can_bid.reserve t player slots0 t.required_roles with
            | none => none
            | some remaining_slots =>
              if remaining_slots < 0 then some false
              else
                let remaining_min_slots : ℕ :=
                  t.min_squad_size - (current_squad_size + 1)
                if remaining_min_slots > 0 ∧
                    t.purse - price <
                      (remaining_min_slots : ℚ) * (2 / 10) then some false
                else some true

/-! ## Concrete instances used by the claims -/

/-- Deterministic jitter stream (`random.uniform(0.85, 1.15)` drawn at 1). -/
def unitJitters : ℕ → ℚ := fun _ => 1

/-- Spec §8 scenario bidder: budget 120, empty roster, default policy. -/
def scenarioTeam : Team := { name := "T", purse := 120, players := [] }

/-- Spec §8 scenario item: starting price 2.0. -/
def scenarioPlayer : Player :=
  { name := "P", base_price := 2, category := "BATTER",
    nationality := "India", age := 30 }

/-- An item with an unrecognized category (claim C4). -/
def unknownItem : Player :=
  { name := "U", base_price := 1, category := "Unknown",
    nationality := "India", age := 30 }

def indianBat (nm : String) : Player :=
  { name := nm, base_price := 1, category := "BATTER",
    nationality := "Indian", age := 30 }

/-- A bidder already holding the category maximum of 8 batters
(claim C2). -/
def maxedBatters : Team :=
  { name := "T", purse := 120,
    players := [indianBat "B1", indianBat "B2", indianBat "B3", indianBat "B4",
                indianBat "B5", indianBat "B6", indianBat "B7", indianBat "B8"] }

def batterItem : Player :=
  { name := "NB", base_price := 2, category := "BATTER",
    nationality := "Indian", age := 30 }

def ausBowler (nm : String) : Player :=
  { name := nm, base_price := 1, category := "BOWLER",
    nationality := "Australia", age := 30 }

/-- A bidder with seven overseas players: one more overseas acquisition
exhausts its overseas allowance (claim C3). -/
def cachedCapsTeam : Team :=
  { name := "T", purse := 120,
    players := [ausBowler "A1", ausBowler "A2", ausBowler "A3", ausBowler "A4",
                ausBowler "A5", ausBowler "A6", ausBowler "A7"] }

def itemOne : Player :=
  { name := "O1", base_price := 1, category := "BATTER",
    nationality := "Australia", age := 30, set_2025 := some "M1" }

def itemTwo : Player :=
  { name := "O2", base_price := 1, category := "BATTER",
    nationality := "Australia", age := 30, set_2025 := some "M2" }

/-- A bidder whose purse covers the second item initially but not after
winning the first (claim C3, budget side). -/
def freshPurseTeam : Team := { name := "T", purse := 11 / 2, players := [] }

def cheapItem : Player :=
  { name := "B1", base_price := 1, category := "BATTER",
    nationality := "India", age := 30, set_2025 := some "M1" }

def pricyItem : Player :=
  { name := "B2", base_price := 5, category := "BATTER",
    nationality := "India", age := 30, set_2025 := some "M2" }

def indPlayer (nm cat : String) : Player :=
  { name := nm, base_price := 1, category := cat,
    nationality := "India", age := 30 }

/-- A full-domestic roster, nationality string `"India"` (claim C10). -/
def domesticRoster : Team :=
  { name := "T", purse := 50,
    players := [indPlayer "I1" "BATTER", indPlayer "I2" "BATTER",
                indPlayer "I3" "BATTER", indPlayer "I4" "BATTER",
                indPlayer "I5" "BOWLER", indPlayer "I6" "BOWLER",
                indPlayer "I7" "ALL-ROUNDER", indPlayer "I8" "WICKETKEEPER"] }

def domesticItem : Player :=
  { name := "D", base_price := 1, category := "BATTER",
    nationality := "India", age := 30 }

/-- A bidder whose purse passes `can_bid`'s reserve check at the item's
starting price but would fail it at a bid-up sale price (claim C1). -/
def tightTeam : Team :=
  { name := "T", purse := 7 / 2,
    players := [indPlayer "M1" "BATTER", indPlayer "M2" "BATTER",
                indPlayer "M3" "BATTER", indPlayer "M4" "BATTER",
                indPlayer "M5" "BOWLER", indPlayer "M6" "BOWLER",
                indPlayer "M7" "BOWLER", indPlayer "M8" "BOWLER",
                indPlayer "M9" "ALL-ROUNDER", indPlayer "M10" "WICKETKEEPER"] }

def premiumItem : Player :=
  { name := "C", base_price := 2, category := "BATTER",
    nationality := "India", age := 30 }

/-- Two rival bidders with ample budget (claim C7's witness run). -/
def rivalA : Team := { name := "A", purse := 120, players := [] }

def rivalB : Team := { name := "B", purse := 120, players := [] }

def chainItem : Player :=
  { name := "C", base_price := 1, category := "BATTER",
    nationality := "India", age := 30 }

/-! ## Totality of the category normalizer -/

theorem lookupStd_mem {c full : String} :
    ∀ {l : List (String × String × ℕ × ℕ)},
      get_standardized_category.lookupStd c l = some full →
      full ∈ l.map (fun e => e.2.1) := by
  intro l
  induction l with
  | nil => intro h; exact absurd h (by simp [get_standardized_category.lookupStd])
  | cons e rest ih =>
    obtain ⟨k, f, r⟩ := e
    intro h
    unfold get_standardized_category.lookupStd at h
    split at h
    · obtain rfl := Option.some.inj h
      simp
    · simpa using Or.inr (by simpa using ih h)

theorem fuzzy_mem {c full : String} :
    ∀ {l : List (String × String × ℕ × ℕ)},
      get_standardized_category.fuzzy c l = some full →
      full ∈ l.map (fun e => e.2.1) := by
  intro l
  induction l with
  | nil => intro h; exact absurd h (by simp [get_standardized_category.fuzzy])
  | cons e rest ih =>
    obtain ⟨k, f, r⟩ := e
    intro h
    unfold get_standardized_category.fuzzy at h
    split at h
    · obtain rfl := Option.some.inj h
      simp
    · simpa using Or.inr (by simpa using ih h)

/-- `get_standardized_category` is total: every category string, however
malformed, lands on one of the four standard names (the fallback being
`"All-rounder"`). -/
theorem get_standardized_category_mem (c : String) :
    get_standardized_category c ∈
      (["Batsman", "Bowler", "All-rounder", "Wicket-keeper"] : List String) := by
  unfold get_standardized_category
  rcases h1 : get_standardized_category.lookupStd c standardizedRoles with _ | full
  · rcases h2 : get_standardized_category.fuzzy c standardizedRoles with _ | full
    · simp
    · have := fuzzy_mem h2
      revert this
      simp [standardizedRoles]
  · have := lookupStd_mem h1
    revert this
    simp [standardizedRoles]

/-! ## The spec §8 single-bidder scenario, for every admissible jitter -/

theorem c8_calc {j : ℚ} (h1 : 17 / 20 ≤ j) :
    calculate_bid_value scenarioTeam scenarioPlayer j =
      some (round2 (min (28 / 5 * j) 48)) ∧
      2 < round2 (min (28 / 5 * j) 48) := by
  constructor
  · simp only [calculate_bid_value, scenarioTeam, scenarioPlayer, lookupRole,
      roleCountD, stdCategories, roleCount, pyTruthy, List.countP, List.countP.go]
    norm_num
    rw [if_neg (by decide : ¬("BATTER" : String) = "WICKETKEEPER"),
      if_neg (by decide : ¬(none : Option String) = some "Y")]
  · refine lt_of_lt_of_le ?_ (round2_ge _)
    rw [lt_sub_iff_add_lt]
    refine lt_min ?_ ?_
    · nlinarith
    · norm_num

theorem c8_step {jitters : ℕ → ℚ} (h1 : 17 / 20 ≤ jitters 0) :
    bidStep [scenarioTeam] scenarioPlayer jitters ⟨[0], 2, none, [], 0⟩ 0 =
      some ⟨[0], 21 / 10, some 0, [⟨"T", 21 / 10, "Active"⟩], 1⟩ := by
  obtain ⟨hmb, hgt⟩ := c8_calc h1
  unfold bidStep
  dsimp only
  rw [show getTeam [scenarioTeam] 0 = scenarioTeam from rfl, hmb]
  dsimp only
  rw [if_neg (by push_neg; exact ⟨hgt, by norm_num [scenarioTeam]⟩)]
  have hnp : round2 (2 + get_bid_increment 2) = 21 / 10 := by
    rw [round2_eq_self (twoDec_add ⟨200, by norm_num⟩ (twoDec_get_bid_increment 2))]
    norm_num [get_bid_increment]
  rw [hnp]
  rfl

theorem c8_loop {jitters : ℕ → ℚ} (h1 : 17 / 20 ≤ jitters 0) :
    bidLoop [scenarioTeam] scenarioPlayer jitters
        (bid_fuel [scenarioTeam] scenarioPlayer.base_price)
        ⟨[0], scenarioPlayer.base_price, none, [], 0⟩ =
      some ⟨[0], 21 / 10, some 0, [⟨"T", 21 / 10, "Active"⟩], 1⟩ := by
  have hfuel : bid_fuel [scenarioTeam] scenarioPlayer.base_price = Nat.succ 1202 := by
    decide!
  rw [hfuel, show scenarioPlayer.base_price = 2 from rfl]
  unfold bidLoop
  rw [if_neg (by decide : ¬([0] : List ℕ).isEmpty = true)]
  dsimp only
  have hpass : bidPass [scenarioTeam] scenarioPlayer jitters [0] ⟨[0], 2, none, [], 0⟩ =
      some ⟨[0], 21 / 10, some 0, [⟨"T", 21 / 10, "Active"⟩], 1⟩ := by
    unfold bidPass
    rw [c8_step h1]
    rfl
  rw [hpass]
  rfl

/-- The outcome of the spec §8 scenario: the bare record marked sold at
one increment above the starting price. -/
def c8Record : AuctionRecord :=
  { create_auction_record scenarioPlayer with
    bidding_history := [⟨"T", 21 / 10, "Active"⟩],
    final_price := some (21 / 10), winning_team := some "T", status := "Sold" }

def c8Team : Team :=
  { scenarioTeam with players := [scenarioPlayer], purse := 120 - 21 / 10 }

theorem c8_pb {jitters : ℕ → ℚ} (h1 : 17 / 20 ≤ jitters 0) :
    process_bidding [scenarioTeam] scenarioPlayer jitters [0]
      (create_auction_record scenarioPlayer) 0 = some (c8Record, [c8Team], 1) := by
  unfold process_bidding
  dsimp only
  rw [c8_loop h1]
  decide!

theorem c8_item {jitters : ℕ → ℚ} (h1 : 17 / 20 ≤ jitters 0) :
    process_item jitters (List.map calculate_capabilities [scenarioTeam])
      ⟨[scenarioTeam], [], 0⟩ scenarioPlayer = some ⟨[c8Team], [c8Record], 1⟩ := by
  have hint : (List.range ([scenarioTeam] : List Team).length).filter (fun i =>
      decide ((getTeam [scenarioTeam] i).purse ≥ scenarioPlayer.base_price) &&
        can_accommodate ((List.map calculate_capabilities [scenarioTeam]).getD i {})
          scenarioPlayer) = [0] := by decide!
  unfold process_item
  dsimp only
  rw [hint]
  rw [if_neg (by decide : ¬([0] : List ℕ).isEmpty = true)]
  rw [c8_pb h1]
  rfl

/-! ## The claims -/

/-- Claim C1, counterexample.  The claim says `_finalize_sale`
re-validates the leader's eligibility against the *final* sale price, so
a leader whose budget was invalidated by the accumulated bidding is
caught and the item recorded Unsold.  Concretely this fails: `tightTeam`
(purse 3.5, ten players, so eight more signings of at least 0.2 each are
still owed to reach the minimum squad of 18) is validated by `can_bid`
(which only tests affordability of the starting price 2.0) and the sale
commits as `Sold` at final price 3.4, leaving purse 0.1 — while the
eligibility predicate evaluated at the final price,
`can_bid_at_price … 3.4`, rejects. -/
theorem c1_counterexample :
    (finalize_sale premiumItem [tightTeam] 0 (17 / 5)
        (create_auction_record premiumItem)).map
        (fun out => (out.1.status, out.1.final_price, out.2.map Team.purse)) =
      some ("Sold", some (17 / 5 : ℚ), [1 / 10]) ∧
    can_bid_at_price tightTeam premiumItem (17 / 5) = some false ∧
    can_bid tightTeam premiumItem = some true := by
  refine ⟨by decide!, by decide!, by decide!⟩

/-- Claim C1, amended.  `_finalize_sale` does re-validate the leader
before committing, but through `can_bid`, whose checks read the item's
*starting* price only: the commit/reject decision is the same for every
final price, and the sale is marked `Sold` exactly when `can_bid`
accepts.  (The final-price-versus-budget check happens separately, in
`_process_bidding`, before `_finalize_sale` is invoked.) -/
theorem c1_theorem (player : Player) (teams : List Team) (widx : ℕ)
    (pr₁ pr₂ : ℚ) (record : AuctionRecord) :
    ((finalize_sale player teams widx pr₁ record).map (fun out => out.1.status) =
      (finalize_sale player teams widx pr₂ record).map (fun out => out.1.status)) ∧
    ((finalize_sale player teams widx pr₁ record).map (fun out => out.1.status) =
        some "Sold" ↔
      can_bid (getTeam teams widx) player = some true) := by
  unfold finalize_sale
  dsimp only
  rcases can_bid (getTeam teams widx) player with _ | b
  · exact ⟨rfl, by simp⟩
  rcases b with _ | _
  · exact ⟨rfl, by simp⟩
  · exact ⟨rfl, by simp⟩

/-- Claim C2, counterexample.  The claim says a bidder at its category
maximum is never admitted to the item's bidding and appears in no bid
events.  Concretely, `maxedBatters` already holds 8 batters (the
configured maximum for `BATTER` is 8), yet for a batter item it is
admitted, posts an `"Active"` bid event, and the item ends `Unsold` only
because the finalize-time `can_bid` rejects the sale. -/
theorem c2_counterexample :
    lookupRole maxedBatters.required_roles batterItem.category = some (6, 8) ∧
    roleCount maxedBatters.players batterItem.category = 8 ∧
    (simulate_auction [maxedBatters] [batterItem] unitJitters).map
        (fun out => out.1.map fun r =>
          (r.status, r.bidding_history.map fun e => (e.team, e.status))) =
      some [("Unsold", [("T", "Active")])] := by
  refine ⟨rfl, by decide, by decide!⟩

/-- Claim C2, amended.  The pre-bid admission pass
(`can_accommodate`) does not check category maxima, so a bidder at its
category maximum can be admitted and appear in bid events; but whenever
the bidder's count in the item's category is at or above that category's
configured maximum, the finalize-time check `can_bid` returns `false`,
so such a bidder can never actually be sold the item. -/
theorem c2_theorem {t : Team} {p : Player} {mn mx : ℕ}
    (hl : lookupRole t.required_roles p.category = some (mn, mx))
    (hcat : p.category ∈ stdCategories)
    (hcnt : mx ≤ roleCount t.players p.category) :
    can_bid t p = some false := by
  unfold can_bid
  dsimp only
  split
  · rfl
  split
  · rfl
  split
  · rfl
  rw [hl]
  have hc : roleCountD t.players p.category = some (roleCount t.players p.category) := by
    rw [roleCountD, if_pos hcat]
  rw [hc]
  dsimp only
  rw [if_pos hcnt]

/-- Witness for C2's amended theorem at the concrete maxed-out roster. -/
theorem c2_witness : can_bid maxedBatters batterItem = some false :=
  c2_theorem rfl (by decide) (by decide)

/-- Claim C3, counterexample.  The claim says the set of bidders admitted
to each item is decided by a predicate evaluated freshly on the bidder's
state at that moment, reflecting earlier items' sales.  Concretely,
`cachedCapsTeam` (7 overseas players) wins the first overseas item — its
roster then holds 8 overseas players — yet it is still admitted to the
second overseas item and posts a bid event, although the eligibility
predicate evaluated fresh on its state at that moment (its final state:
the second sale is rejected at finalize, so nothing mutates afterwards)
rejects it: `team_capabilities` is computed once, before the first item,
and never refreshed. -/
theorem c3_counterexample :
    (simulate_auction [cachedCapsTeam] [itemOne, itemTwo] unitJitters).map
        (fun out => (out.1.map fun r =>
            (r.player_name, r.status, r.bidding_history.length),
          out.2.map fun t => t.players.length)) =
      some ([("O1", "Sold", 1), ("O2", "Unsold", 1)], [8]) ∧
    can_accommodate (calculate_capabilities
        (getTeam ((simulate_auction [cachedCapsTeam] [itemOne, itemTwo]
          unitJitters).getD ([], [])).2 0)) itemTwo = false := by
  refine ⟨by decide!, by decide!⟩

/-- Claim C3, amended.  Admission is only partly fresh: the purse check
reads the bidder's live budget (a bidder whose budget was reduced below
a later item's starting price by an earlier win is excluded with an
empty log, even though its pre-run budget sufficed), while the
composition capabilities are the ones computed from the pre-run states
(which admitted the bidder of the counterexample to the item a fresh
evaluation rejects). -/
theorem c3_theorem :
    (simulate_auction [freshPurseTeam] [cheapItem, pricyItem] unitJitters).map
        (fun out => (out.1.map fun r => (r.status, r.bidding_history.length),
          out.2.map Team.purse)) =
      some ([("Sold", 1), ("Unsold", 0)], [89 / 20]) ∧
    pricyItem.base_price ≤ freshPurseTeam.purse ∧
    can_accommodate (calculate_capabilities cachedCapsTeam) itemTwo = true := by
  refine ⟨by decide!, by decide!, by decide!⟩

/-- Claim C4, counterexample.  The claim says an item with an
unrecognized category is defaulted to a nearest-match category with a
warning and processing continues, the eligibility check and valuation
never raising.  Concretely, on a category `"Unknown"` both `can_bid` and
`calculate_bid_value` raise `KeyError` (modelled `none`) — they index
`required_roles` / the role-counts dict directly, without the
normalizer — and a run over such an item with an interested bidder
aborts instead of continuing. -/
theorem c4_counterexample :
    can_bid scenarioTeam unknownItem = none ∧
    calculate_bid_value scenarioTeam unknownItem 1 = none ∧
    simulate_auction [scenarioTeam] [unknownItem] unitJitters = none := by
  refine ⟨by decide!, by decide!, by decide!⟩

/-- Claim C4, amended.  The nearest-match defaulting exists — the
normalizer `get_standardized_category` is total and maps every category
string to one of the four standard names, defaulting to
`"All-rounder"` — but it is not wired into the bidding path: whenever a
player's category is missing from the role table (and the earlier
short-circuit checks do not fire), `can_bid` and `calculate_bid_value`
raise `KeyError` (`none`) instead of recovering. -/
theorem c4_theorem (t : Team) (p : Player) (j : ℚ)
    (h1 : ¬p.base_price > t.purse)
    (h2 : t.players.length < t.max_squad_size)
    (h3 : ¬(p.nationality ≠ "India" ∧ get_overseas_count t ≥ t.max_overseas))
    (h4 : lookupRole t.required_roles p.category = none) :
    can_bid t p = none ∧ calculate_bid_value t p j = none ∧
    get_standardized_category p.category ∈
      (["Batsman", "Bowler", "All-rounder", "Wicket-keeper"] : List String) := by
  refine ⟨?_, ?_, get_standardized_category_mem _⟩
  · unfold can_bid
    dsimp only
    rw [if_neg h1, if_neg (by omega), if_neg h3, h4]
  · unfold calculate_bid_value
    dsimp only
    rw [h4]

/-- Witness for C4's amended theorem at the concrete unknown-category
item. -/
theorem c4_witness :
    can_bid scenarioTeam unknownItem = none ∧
    calculate_bid_value scenarioTeam unknownItem 1 = none ∧
    get_standardized_category unknownItem.category ∈
      (["Batsman", "Bowler", "All-rounder", "Wicket-keeper"] : List String) :=
  c4_theorem scenarioTeam unknownItem 1 (by decide!) (by decide) (by decide) rfl

/-- Claim C5.  After a full run over any input item list, the ledger
holds exactly one record per input item (its names are the catalog's
names, permuted into processing order), and a record is `Sold` exactly
when both its winning bidder and its final price are present. -/
theorem c5_theorem {teams : List Team} {players : List Player}
    {jitters : ℕ → ℚ} {ledger : List AuctionRecord} {final : List Team}
    (h : simulate_auction teams players jitters = some (ledger, final)) :
    ledger.length = players.length ∧
    List.Perm (ledger.map fun r => r.player_name) (players.map Player.name) ∧
    ∀ r ∈ ledger, (r.status = "Sold" ↔
      r.winning_team ≠ none ∧ r.final_price ≠ none) := by
  obtain ⟨stF, hrun, hl, hf⟩ := simulate_auction_spec h
  subst hl hf
  obtain ⟨added, hh, hlen, hok⟩ := run_items_history hrun
  obtain ⟨added2, hh2, hmap⟩ := run_items_names hrun
  have hperm := get_sorted_players_perm players
  refine ⟨?_, ?_, ?_⟩
  · rw [hh]
    simpa using hlen.trans hperm.length_eq
  · have hadd : stF.history = added2 := by simpa using hh2
    rw [hadd, hmap]
    exact hperm.map Player.name
  · intro r hr
    refine hok r ?_
    rw [hh] at hr
    simpa using hr

/-- Witness for C5 on a concrete two-item run. -/
theorem c5_witness :
    (((simulate_auction [cachedCapsTeam] [itemOne, itemTwo]
        unitJitters).getD ([], [])).1).length = [itemOne, itemTwo].length ∧
    List.Perm ((((simulate_auction [cachedCapsTeam] [itemOne, itemTwo]
        unitJitters).getD ([], [])).1).map fun r => r.player_name)
      ([itemOne, itemTwo].map Player.name) ∧
    ∀ r ∈ ((simulate_auction [cachedCapsTeam] [itemOne, itemTwo]
        unitJitters).getD ([], [])).1,
      (r.status = "Sold" ↔ r.winning_team ≠ none ∧ r.final_price ≠ none) :=
  @c5_theorem [cachedCapsTeam] [itemOne, itemTwo] unitJitters
    ((simulate_auction [cachedCapsTeam] [itemOne, itemTwo] unitJitters).getD ([], [])).1
    ((simulate_auction [cachedCapsTeam] [itemOne, itemTwo] unitJitters).getD ([], [])).2
    (by decide!)

/-- Claim C6.  For bidders with non-negative starting budgets (and
pairwise-distinct names), budgets stay non-negative at every point of a
run, and each bidder's final budget is its initial budget minus the sum
of the final prices of the ledger records it won. -/
theorem c6_theorem {teams : List Team} {players : List Player}
    {jitters : ℕ → ℚ} {ledger : List AuctionRecord} {final : List Team}
    (h0 : ∀ t ∈ teams, 0 ≤ t.purse)
    (hnd : (teams.map Team.name).Nodup)
    (h : simulate_auction teams players jitters = some (ledger, final)) :
    (∀ t ∈ final, 0 ≤ t.purse) ∧
    (∀ (pre suf : List Player) (stMid : SimState),
      get_sorted_players players = pre ++ suf →
      run_items jitters (teams.map calculate_capabilities) pre
        ⟨teams, [], 0⟩ = some stMid →
      ∀ t ∈ stMid.teams, 0 ≤ t.purse) ∧
    ∀ i, i < teams.length →
      (getTeam final i).purse =
        (getTeam teams i).purse - wonSum ledger (getTeam teams i).name := by
  obtain ⟨stF, hrun, hl, hf⟩ := simulate_auction_spec h
  subst hl hf
  refine ⟨run_items_nonneg hrun h0, ?_, ?_⟩
  · intro pre suf stMid _ hpre
    exact run_items_nonneg hpre h0
  · obtain ⟨added, hh, heq⟩ := run_items_purse hrun hnd
    intro i hi
    rw [hh]
    simpa using heq i hi

/-- Witness for C6 on a concrete two-item run. -/
theorem c6_witness :
    (∀ t ∈ ((simulate_auction [cachedCapsTeam] [itemOne, itemTwo]
        unitJitters).getD ([], [])).2, 0 ≤ t.purse) ∧
    (∀ (pre suf : List Player) (stMid : SimState),
      get_sorted_players [itemOne, itemTwo] = pre ++ suf →
      run_items unitJitters ([cachedCapsTeam].map calculate_capabilities) pre
        ⟨[cachedCapsTeam], [], 0⟩ = some stMid →
      ∀ t ∈ stMid.teams, 0 ≤ t.purse) ∧
    ∀ i, i < ([cachedCapsTeam] : List Team).length →
      (getTeam ((simulate_auction [cachedCapsTeam] [itemOne, itemTwo]
          unitJitters).getD ([], [])).2 i).purse =
        (getTeam [cachedCapsTeam] i).purse -
          wonSum ((simulate_auction [cachedCapsTeam] [itemOne, itemTwo]
            unitJitters).getD ([], [])).1 (getTeam [cachedCapsTeam] i).name :=
  @c6_theorem [cachedCapsTeam] [itemOne, itemTwo] unitJitters
    ((simulate_auction [cachedCapsTeam] [itemOne, itemTwo] unitJitters).getD ([], [])).1
    ((simulate_auction [cachedCapsTeam] [itemOne, itemTwo] unitJitters).getD ([], [])).2
    (by decide!) (by decide) (by decide!)

/-- Claim C7.  Within any record of a completed run, consecutive
`"Active"` bid events strictly increase, each step being exactly the
claimed increment schedule evaluated at the preceding price (≤ 1 steps
by 0.05, (1, 3] by 0.10, (3, 10] by 0.20, above 10 by 0.50). -/
theorem c7_theorem {teams : List Team} {players : List Player}
    {jitters : ℕ → ℚ} {ledger : List AuctionRecord} {final : List Team}
    (h : simulate_auction teams players jitters = some (ledger, final)) :
    ∀ r ∈ ledger, List.Chain'
      (fun a b => b.bid_amount = a.bid_amount +
          (if a.bid_amount ≤ 1 then 5 / 100 else if a.bid_amount ≤ 3 then 10 / 100
           else if a.bid_amount ≤ 10 then 20 / 100 else 50 / 100) ∧
        a.bid_amount < b.bid_amount)
      (activeEvents r.bidding_history) := by
  obtain ⟨stF, hrun, hl, hf⟩ := simulate_auction_spec h
  subst hl
  intro r hr
  rcases run_items_chain hrun r hr with h0 | hchain
  · exact absurd h0 (List.not_mem_nil r)
  · refine hchain.imp ?_
    intro a b hab
    obtain ⟨h1, h2⟩ := hab
    exact ⟨by rw [← get_bid_increment_claim_schedule]; exact h1, h2⟩

/-- Witness for C7 on a run with a long rival bidding war. -/
theorem c7_witness :
    ((simulate_auction [rivalA, rivalB] [chainItem] unitJitters).getD ([], [])).1.Forall
      (fun r => List.Chain'
        (fun a b => b.bid_amount = a.bid_amount +
            (if a.bid_amount ≤ 1 then 5 / 100 else if a.bid_amount ≤ 3 then 10 / 100
             else if a.bid_amount ≤ 10 then 20 / 100 else 50 / 100) ∧
          a.bid_amount < b.bid_amount)
        (activeEvents r.bidding_history)) :=
  List.forall_iff_forall_mem.mpr
    (@c7_theorem [rivalA, rivalB] [chainItem] unitJitters
      ((simulate_auction [rivalA, rivalB] [chainItem] unitJitters).getD ([], [])).1
      ((simulate_auction [rivalA, rivalB] [chainItem] unitJitters).getD ([], [])).2
      (by decide!))

/-- Claim C8, counterexample.  The claim expects the lone bidder's item
to sell at exactly the starting price 2.0 with zero increments; the run
actually sells it at 2.10 with one `"Active"` increment (the lone bidder
must outbid the running price once before the loop's stop condition can
fire). -/
theorem c8_counterexample :
    (simulate_auction [scenarioTeam] [scenarioPlayer] unitJitters).map
        (fun out => out.1.map fun r =>
          (r.status, r.final_price, (activeEvents r.bidding_history).length)) =
      some [("Sold", some (21 / 10 : ℚ), 1)] ∧ (21 / 10 : ℚ) ≠ 2 := by
  refine ⟨by decide!, by decide!⟩

/-- Claim C8, amended.  A bidder with budget 120 and empty roster under
the standard category ranges, facing a single item priced at 2.0 with no
rivals, buys the item at exactly 2.10 — one schedule increment above the
starting price — with exactly one `"Active"` bid event, for every jitter
stream within the `uniform(0.85, 1.15)` range. -/
theorem c8_theorem (jitters : ℕ → ℚ)
    (hj : ∀ n, 17 / 20 ≤ jitters n ∧ jitters n ≤ 23 / 20) :
    (simulate_auction [scenarioTeam] [scenarioPlayer] jitters).map
        (fun out => out.1.map fun r =>
          (r.status, r.final_price, (activeEvents r.bidding_history).length)) =
      some [("Sold", some (21 / 10 : ℚ), 1)] := by
  have h1 := (hj 0).1
  unfold simulate_auction
  dsimp only
  rw [show get_sorted_players [scenarioPlayer] = [scenarioPlayer] from by decide!]
  rw [run_items_cons, c8_item h1]
  rw [show (some (⟨[c8Team], [c8Record], 1⟩ : SimState)).bind
      (run_items jitters (List.map calculate_capabilities [scenarioTeam]) []) =
      some ⟨[c8Team], [c8Record], 1⟩ from rfl]
  decide!

/-- Witness for C8's amended theorem at the constant jitter 1. -/
theorem c8_witness :
    (simulate_auction [scenarioTeam] [scenarioPlayer] unitJitters).map
        (fun out => out.1.map fun r =>
          (r.status, r.final_price, (activeEvents r.bidding_history).length)) =
      some [("Sold", some (21 / 10 : ℚ), 1)] :=
  c8_theorem unitJitters (fun _ =>
    ⟨(by decide! : (17 : ℚ) / 20 ≤ 1), (by decide! : (1 : ℚ) ≤ 23 / 20)⟩)

/-- Claim C9.  For well-formed inputs (non-negative budgets, items with
recognized categories, role tables keyed by the standard categories —
the data model's own typing) the auction engine terminates: the bidding
loop converges for every item, every valuation and eligibility call
succeeds, and the whole run over the full sequenced item list completes
with a result. -/
theorem c9_theorem (teams : List Team) (players : List Player)
    (jitters : ℕ → ℚ)
    (h0 : ∀ t ∈ teams, 0 ≤ t.purse)
    (hcat : ∀ p ∈ players, p.category ∈ stdCategories)
    (hroles : ∀ t ∈ teams, rolesOK t) :
    simulate_auction teams players jitters ≠ none := by
  have hroles' : ∀ i : ℕ, rolesOK (getTeam teams i) := by
    intro i
    by_cases hi : i < teams.length
    · refine hroles _ ?_
      rw [getTeam, List.getD_eq_getElem teams defaultTeam hi]
      exact List.getElem_mem hi
    · rw [getTeam, List.getD_eq_default _ _ (le_of_not_lt hi)]
      exact defaultTeam_rolesOK
  have hcat' : ∀ p ∈ get_sorted_players players, p.category ∈ stdCategories :=
    fun p hp => hcat p ((get_sorted_players_perm players).mem_iff.mp hp)
  obtain ⟨stF, hrun⟩ := @run_items_isSome jitters
    (teams.map calculate_capabilities)
    (get_sorted_players players) ⟨teams, [], 0⟩ hcat' hroles'
  unfold simulate_auction
  dsimp only
  rw [hrun]
  simp

/-- Witness for C9 on the concrete single-item scenario. -/
theorem c9_witness :
    simulate_auction [scenarioTeam] [scenarioPlayer] unitJitters ≠ none :=
  c9_theorem _ _ _ (by decide!) (by decide)
    (fun t ht => by
      obtain rfl := List.mem_singleton.mp ht
      exact ⟨by decide, by decide⟩)

/-- Claim C10.  The two gates classify "overseas" by different domestic
labels: the pre-bid capabilities pass counts `nationality ≠ "Indian"`,
the finalize-time checks count `nationality ≠ "India"`.  For a team of
eight players all labelled `"India"`, the capabilities pass bars even a
domestic (`"India"`) item — every roster member counts as overseas
there — while the finalize-time overseas count of the same state is zero
and `can_bid` accepts the same item. -/
theorem c10_theorem :
    domesticRoster.players.length = 8 ∧
    (∀ p ∈ domesticRoster.players, p.nationality = "India") ∧
    domesticItem.nationality = "India" ∧
    can_accommodate (calculate_capabilities domesticRoster) domesticItem = false ∧
    get_overseas_count domesticRoster = 0 ∧
    can_bid domesticRoster domesticItem = some true := by
  refine ⟨rfl, by decide, rfl, by decide, by decide, by decide!⟩

end IPLAuction
